import Mathlib

/-!
Verification of the shardstore repository core: the consistent-hash ring
(internal/hash/consistent.go), the storage node engine
(internal/storage/node.go) and the file-manager coordinator
(internal/manager/filemanager.go), shallowly embedded in Lean.

Bytes are modelled as `Nat` values (< 256 where they come from real data),
byte strings as `List Nat`.  Go strings convert to bytes by UTF-8, which is
implemented below, as are the real MD5 (used by the ring's `hashKey`) and
SHA-256 (used by the node's `calculateChecksum`) digests.
-/

set_option maxRecDepth 100000

deriving instance DecidableEq for Except

namespace Shardstore

/-! ## Bytes, UTF-8 and hex encoding -/

/-- UTF-8 encoding of a single Unicode code point, as Go produces for the
conversion of a `string` to `[]byte`. -/
def utf8Char (c : Nat) : List Nat :=
  if c < 128 then [c]
  else if c < 2048 then
    [192 ||| (c >>> 6), 128 ||| (c &&& 63)]
  else if c < 65536 then
    [224 ||| (c >>> 12), 128 ||| ((c >>> 6) &&& 63), 128 ||| (c &&& 63)]
  else
    [240 ||| (c >>> 18), 128 ||| ((c >>> 12) &&& 63),
     128 ||| ((c >>> 6) &&& 63), 128 ||| (c &&& 63)]

/-- UTF-8 encoding of a string: Go's `[]byte(s)`. -/
def strBytes (s : String) : List Nat :=
  s.data.flatMap (fun c => utf8Char c.toNat)

/-- Lowercase hex digit, as used by Go's `encoding/hex`. -/
def hexDigit (n : Nat) : Char :=
  if n < 10 then Char.ofNat (48 + n) else Char.ofNat (87 + n)

/-- Go's `hex.EncodeToString`: two lowercase hex digits per byte. -/
def hexEncode (bs : List Nat) : String :=
  String.mk (bs.flatMap (fun b => [hexDigit (b / 16), hexDigit (b % 16)]))

/-! ## 32-bit arithmetic helpers -/

/-- Truncation to a 32-bit word. -/
def w32 (x : Nat) : Nat := x % 4294967296

/-- 32-bit addition. -/
def add32 (x y : Nat) : Nat := w32 (x + y)

/-- 32-bit left rotation (arguments assumed < 2^32, 0 < n < 32). -/
def rotl32 (x n : Nat) : Nat :=
  w32 ((x <<< n) ||| (x >>> (32 - n)))

/-- 32-bit right rotation. -/
def rotr32 (x n : Nat) : Nat :=
  w32 ((x >>> n) ||| (x <<< (32 - n)))

/-- 32-bit complement. -/
def not32 (x : Nat) : Nat := 4294967295 ^^^ x

/-- Split a list into chunks of 64 bytes (message blocks); the fuel is an
upper bound on the number of chunks, making the recursion structural. -/
def chunksAux : Nat → List Nat → List (List Nat)
  | 0, _ => []
  | fuel + 1, l => if l = [] then [] else l.take 64 :: chunksAux fuel (l.drop 64)

/-- Split a list into chunks of 64 bytes (message blocks). -/
def chunks64 (l : List Nat) : List (List Nat) :=
  chunksAux l.length l

/-! ## MD5 (RFC 1321), as used by Go's `crypto/md5` in `hashKey` -/

/-- The 64 MD5 sine-derived constants. -/
def md5K : List Nat :=
  [3614090360, 3905402710, 606105819, 3250441966,
   4118548399, 1200080426, 2821735955, 4249261313,
   1770035416, 2336552879, 4294925233, 2304563134,
   1804603682, 4254626195, 2792965006, 1236535329,
   4129170786, 3225465664, 643717713, 3921069994,
   3593408605, 38016083, 3634488961, 3889429448,
   568446438, 3275163606, 4107603335, 1163531501,
   2850285829, 4243563512, 1735328473, 2368359562,
   4294588738, 2272392833, 1839030562, 4259657740,
   2763975236, 1272893353, 4139469664, 3200236656,
   681279174, 3936430074, 3572445317, 76029189,
   3654602809, 3873151461, 530742520, 3299628645,
   4096336452, 1126891415, 2878612391, 4237533241,
   1700485571, 2399980690, 4293915773, 2240044497,
   1873313359, 4264355552, 2734768916, 1309151649,
   4149444226, 3174756917, 718787259, 3951481745]

/-- The 64 MD5 per-round left-rotation amounts. -/
def md5S : List Nat :=
  [7, 12, 17, 22, 7, 12, 17, 22, 7, 12, 17, 22, 7, 12, 17, 22,
   5,  9, 14, 20, 5,  9, 14, 20, 5,  9, 14, 20, 5,  9, 14, 20,
   4, 11, 16, 23, 4, 11, 16, 23, 4, 11, 16, 23, 4, 11, 16, 23,
   6, 10, 15, 21, 6, 10, 15, 21, 6, 10, 15, 21, 6, 10, 15, 21]

/-- Little-endian 32-bit word from four bytes. -/
def leWord (b0 b1 b2 b3 : Nat) : Nat :=
  b0 + b1 * 256 + b2 * 65536 + b3 * 16777216

/-- The sixteen little-endian words of a 64-byte block. -/
def leWords (block : List Nat) : List Nat :=
  (List.range 16).map (fun j =>
    leWord (block.getD (4 * j) 0) (block.getD (4 * j + 1) 0)
           (block.getD (4 * j + 2) 0) (block.getD (4 * j + 3) 0))

/-- One MD5 round: round index `i`, message words `m`, state `(a, b, c, d)`. -/
def md5Round (m : List Nat) (st : Nat × Nat × Nat × Nat) (i : Nat) :
    Nat × Nat × Nat × Nat :=
  let a := st.1
  let b := st.2.1
  let c := st.2.2.1
  let d := st.2.2.2
  let fg : Nat × Nat :=
    if i < 16 then ((b &&& c) ||| (not32 b &&& d), i)
    else if i < 32 then ((d &&& b) ||| (not32 d &&& c), (5 * i + 1) % 16)
    else if i < 48 then (b ^^^ c ^^^ d, (3 * i + 5) % 16)
    else (c ^^^ (b ||| not32 d), (7 * i) % 16)
  let f := add32 (add32 (add32 fg.1 a) (md5K.getD i 0)) (m.getD fg.2 0)
  (d, add32 b (rotl32 f (md5S.getD i 0)), b, c)

/-- MD5 compression of one 64-byte block into the running state. -/
def md5Block (st : Nat × Nat × Nat × Nat) (block : List Nat) :
    Nat × Nat × Nat × Nat :=
  let m := leWords block
  let r := (List.range 64).foldl (md5Round m) st
  (add32 st.1 r.1, add32 st.2.1 r.2.1, add32 st.2.2.1 r.2.2.1,
   add32 st.2.2.2 r.2.2.2)

/-- MD5 padding: a 128 byte, zeros to 56 mod 64, then the bit length as
eight little-endian bytes. -/
def md5Pad (msg : List Nat) : List Nat :=
  let len := msg.length
  let padLen := (55 + 64 - len % 64) % 64 + 1
  let bitLen := (len * 8) % 18446744073709551616
  msg ++ (128 :: List.replicate (padLen - 1) 0) ++
    (List.range 8).map (fun j => (bitLen >>> (8 * j)) % 256)

/-- Four little-endian bytes of a 32-bit word. -/
def leBytes (x : Nat) : List Nat :=
  [x % 256, (x >>> 8) % 256, (x >>> 16) % 256, (x >>> 24) % 256]

/-- The 16-byte MD5 digest of a byte string. -/
def md5 (msg : List Nat) : List Nat :=
  let st := (chunks64 (md5Pad msg)).foldl md5Block
    (1732584193, 4023233417, 2562383102, 271733878)
  leBytes st.1 ++ leBytes st.2.1 ++ leBytes st.2.2.1 ++ leBytes st.2.2.2

/-- The ring's `hashKey` (consistent.go): the first four MD5 digest bytes
as a big-endian 32-bit value. -/
def hashKey (key : String) : Nat :=
  let h := md5 (strBytes key)
  (h.getD 0 0) <<< 24 ||| (h.getD 1 0) <<< 16 ||| (h.getD 2 0) <<< 8 ||| h.getD 3 0

/-! ## SHA-256 (FIPS 180-4), as used by `calculateChecksum` in node.go -/

/-- The 64 SHA-256 round constants. -/
def sha256K : List Nat :=
  [1116352408, 1899447441, 3049323471, 3921009573,
   961987163, 1508970993, 2453635748, 2870763221,
   3624381080, 310598401, 607225278, 1426881987,
   1925078388, 2162078206, 2614888103, 3248222580,
   3835390401, 4022224774, 264347078, 604807628,
   770255983, 1249150122, 1555081692, 1996064986,
   2554220882, 2821834349, 2952996808, 3210313671,
   3336571891, 3584528711, 113926993, 338241895,
   666307205, 773529912, 1294757372, 1396182291,
   1695183700, 1986661051, 2177026350, 2456956037,
   2730485921, 2820302411, 3259730800, 3345764771,
   3516065817, 3600352804, 4094571909, 275423344,
   430227734, 506948616, 659060556, 883997877,
   958139571, 1322822218, 1537002063, 1747873779,
   1955562222, 2024104815, 2227730452, 2361852424,
   2428436474, 2756734187, 3204031479, 3329325298]

/-- Big-endian 32-bit word from four bytes. -/
def beWord (b0 b1 b2 b3 : Nat) : Nat :=
  b0 * 16777216 + b1 * 65536 + b2 * 256 + b3

/-- SHA-256 message schedule: 64 words from a 64-byte block. -/
def sha256Schedule (block : List Nat) : List Nat :=
  let w16 := (List.range 16).map (fun j =>
    beWord (block.getD (4 * j) 0) (block.getD (4 * j + 1) 0)
           (block.getD (4 * j + 2) 0) (block.getD (4 * j + 3) 0))
  (List.range 48).foldl (fun w _ =>
    let t := w.length
    let w15 := w.getD (t - 15) 0
    let w2 := w.getD (t - 2) 0
    let s0 := rotr32 w15 7 ^^^ rotr32 w15 18 ^^^ (w15 >>> 3)
    let s1 := rotr32 w2 17 ^^^ rotr32 w2 19 ^^^ (w2 >>> 10)
    w ++ [add32 (add32 (w.getD (t - 16) 0) s0) (add32 (w.getD (t - 7) 0) s1)])
    w16

/-- SHA-256 working state: eight 32-bit words. -/
structure Sha256St where
  a : Nat
  b : Nat
  c : Nat
  d : Nat
  e : Nat
  f : Nat
  g : Nat
  h : Nat
deriving Repr, DecidableEq

/-- One SHA-256 compression round. -/
def sha256Round (w : List Nat) (st : Sha256St) (t : Nat) : Sha256St :=
  let s1 := rotr32 st.e 6 ^^^ rotr32 st.e 11 ^^^ rotr32 st.e 25
  let ch := (st.e &&& st.f) ^^^ (not32 st.e &&& st.g)
  let temp1 := add32 (add32 (add32 st.h s1) (add32 ch (sha256K.getD t 0))) (w.getD t 0)
  let s0 := rotr32 st.a 2 ^^^ rotr32 st.a 13 ^^^ rotr32 st.a 22
  let maj := (st.a &&& st.b) ^^^ (st.a &&& st.c) ^^^ (st.b &&& st.c)
  let temp2 := add32 s0 maj
  ⟨add32 temp1 temp2, st.a, st.b, st.c, add32 st.d temp1, st.e, st.f, st.g⟩

/-- SHA-256 compression of one 64-byte block into the running state. -/
def sha256Block (st : Sha256St) (block : List Nat) : Sha256St :=
  let w := sha256Schedule block
  let r := (List.range 64).foldl (sha256Round w) st
  ⟨add32 st.a r.a, add32 st.b r.b, add32 st.c r.c, add32 st.d r.d,
   add32 st.e r.e, add32 st.f r.f, add32 st.g r.g, add32 st.h r.h⟩

/-- SHA-256 padding: like MD5's but the bit length is written big-endian. -/
def sha256Pad (msg : List Nat) : List Nat :=
  let len := msg.length
  let padLen := (55 + 64 - len % 64) % 64 + 1
  let bitLen := (len * 8) % 18446744073709551616
  msg ++ (128 :: List.replicate (padLen - 1) 0) ++
    (List.range 8).map (fun j => (bitLen >>> (8 * (7 - j))) % 256)

/-- Four big-endian bytes of a 32-bit word. -/
def beBytes (x : Nat) : List Nat :=
  [(x >>> 24) % 256, (x >>> 16) % 256, (x >>> 8) % 256, x % 256]

/-- The 32-byte SHA-256 digest of a byte string. -/
def sha256 (msg : List Nat) : List Nat :=
  let st := (chunks64 (sha256Pad msg)).foldl sha256Block
    ⟨1779033703, 3144134277, 1013904242, 2773480762,
     1359893119, 2600822924, 528734635, 1541459225⟩
  beBytes st.a ++ beBytes st.b ++ beBytes st.c ++ beBytes st.d ++
    beBytes st.e ++ beBytes st.f ++ beBytes st.g ++ beBytes st.h

/-- `calculateChecksum` (node.go): hex-encoded SHA-256 of the data. -/
def calculateChecksum (data : List Nat) : String :=
  hexEncode (sha256 data)

/-! ## Association-list maps

Go maps are unordered key-value stores; they are modelled extensionally by
association lists holding at most one binding per key (`alSet` replaces any
previous binding). -/

/-- Map lookup. -/
def alGet? [BEq κ] (m : List (κ × β)) (k : κ) : Option β :=
  (m.find? (fun p => p.1 == k)).map Prod.snd

/-- Map insert/overwrite: `m[k] = v`. -/
def alSet [BEq κ] (m : List (κ × β)) (k : κ) (v : β) : List (κ × β) :=
  (k, v) :: m.filter (fun p => !(p.1 == k))

/-- Map delete: Go's `delete(m, k)`. -/
def alDel [BEq κ] (m : List (κ × β)) (k : κ) : List (κ × β) :=
  m.filter (fun p => !(p.1 == k))

/-- Go map read with the zero value: `ch.nodes[h]` yields `""` for a
missing key. -/
def ringLookup (m : List (Nat × String)) (h : Nat) : String :=
  (alGet? m h).getD ""

/-! ## The consistent hash ring (internal/hash/consistent.go) -/

/-- `ConsistentHash`: the sorted ring positions, the position-to-node map,
and the two configuration numbers. -/
structure ConsistentHash where
  hashRing : List Nat
  nodes : List (Nat × String)
  virtualNodes : Nat
  replicaFactor : Nat
deriving Repr, DecidableEq

/-- `NewConsistentHash`: non-positive arguments fall back to 150 virtual
nodes and replica factor 2 (Nat models Go's int; 0 stands for the
non-positive case). -/
def newConsistentHash (virtualNodes replicaFactor : Nat) : ConsistentHash :=
  { hashRing := [], nodes := [],
    virtualNodes := if virtualNodes = 0 then 150 else virtualNodes,
    replicaFactor := if replicaFactor = 0 then 2 else replicaFactor }

/-- The virtual key `fmt.Sprintf("%s#%d", nodeID, i)`. -/
def virtualKey (nodeID : String) (i : Nat) : String :=
  nodeID ++ "#" ++ toString i

/-- The ring positions of one node's virtual nodes, in replica-index order. -/
def nodeHashes (virtualNodes : Nat) (nodeID : String) : List Nat :=
  (List.range virtualNodes).map (fun i => hashKey (virtualKey nodeID i))

/-- `AddNode`: append every virtual-node hash to the ring, record each in
the position map, then re-sort the ring.  `sort.Slice` ascending on a list
of naturals has a unique result, so any correct sort is extensionally the
Go one. -/
def addNode (ch : ConsistentHash) (nodeID : String) : ConsistentHash :=
  let hs := nodeHashes ch.virtualNodes nodeID
  { ch with
    hashRing := List.insertionSort (· ≤ ·) (ch.hashRing ++ hs),
    nodes := hs.foldl (fun m h => alSet m h nodeID) ch.nodes }

/-- `sort.Search(len(ring), ring[i] >= h)` on the sorted ring: the least
index whose entry is `≥ h`, i.e. the length of the prefix of entries
`< h`. -/
def lowerBound (ring : List Nat) (h : Nat) : Nat :=
  (ring.takeWhile (fun x => x < h)).length

/-- One step of `RemoveNode`: binary-search for an exact position match and
remove that single ring entry if found. -/
def removeExact (ring : List Nat) (h : Nat) : List Nat :=
  let idx := lowerBound ring h
  if idx < ring.length ∧ ring.getD idx 0 = h then ring.eraseIdx idx else ring

/-- `RemoveNode`: for each virtual-node hash, remove the matching ring
entry (if any) and delete the position-map binding. -/
def removeNode (ch : ConsistentHash) (nodeID : String) : ConsistentHash :=
  (List.range ch.virtualNodes).foldl (fun c i =>
    let h := hashKey (virtualKey nodeID i)
    { c with hashRing := removeExact c.hashRing h, nodes := alDel c.nodes h }) ch

/-- `search` (consistent.go): lower bound, wrapping to index 0 past the
largest ring position. -/
def ringSearch (ring : List Nat) (h : Nat) : Nat :=
  let idx := lowerBound ring h
  if idx ≥ ring.length then 0 else idx

/-- The collection loop of `GetNodes`: walk the values, appending ones not
seen yet, until `k` distinct identifiers are collected. -/
def takeDistinct (k : Nat) : List String → List String → List String
  | acc, [] => acc
  | acc, x :: xs =>
    if acc.length < k then
      (if x ∈ acc then takeDistinct k acc xs else takeDistinct k (acc ++ [x]) xs)
    else acc

/-- `GetNodes`: empty list on an empty ring; otherwise walk the ring
entries at indices `(idx + i) % n` for `i = 0..n-1` — the rotation of the
ring by `idx` — collecting distinct node identifiers until the replica
factor is reached. -/
def getNodes (ch : ConsistentHash) (key : String) : List String :=
  if ch.hashRing.length = 0 then []
  else
    let idx := ringSearch ch.hashRing (hashKey key)
    takeDistinct ch.replicaFactor [] ((ch.hashRing.rotate idx).map (ringLookup ch.nodes))

/-- A ring mutation, for reasoning about operation sequences. -/
inductive RingOp where
  | add (nodeID : String)
  | remove (nodeID : String)
deriving Repr, DecidableEq

/-- Apply one ring mutation. -/
def applyRingOp (ch : ConsistentHash) : RingOp → ConsistentHash
  | .add n => addNode ch n
  | .remove n => removeNode ch n

/-- Run a sequence of ring mutations. -/
def runRing (ch : ConsistentHash) (ops : List RingOp) : ConsistentHash :=
  ops.foldl applyRingOp ch

/-! ## The storage node engine (internal/storage/node.go)

The node's private directory tree `StoragePath/fileID/versionID/{data,
checksum}` is modelled as a two-level map; a fileID container exists
exactly when it has an entry. -/

/-- One stored version: the data bytes and the persisted checksum file. -/
structure VersionEntry where
  data : List Nat
  checksum : String
deriving Repr, DecidableEq

/-- A node's storage state. -/
structure NodeStore where
  files : List (String × List (String × VersionEntry))
deriving Repr, DecidableEq

/-- `StoreFile`: create the container, write the data, then write the
checksum of exactly those bytes. -/
def storeFile (s : NodeStore) (fileID versionID : String) (data : List Nat) : NodeStore :=
  let vers := (alGet? s.files fileID).getD []
  ⟨alSet s.files fileID (alSet vers versionID ⟨data, calculateChecksum data⟩)⟩

/-- The stored entry for a key, if any. -/
def versionEntry (s : NodeStore) (fileID versionID : String) : Option VersionEntry :=
  (alGet? s.files fileID).bind (fun vers => alGet? vers versionID)

/-- `RetrieveFile`: read data and stored checksum, recompute, and fail with
the distinct corruption error on mismatch.  A missing entry fails with the
I/O not-found error (modelled by its message category). -/
def retrieveFile (s : NodeStore) (fileID versionID : String) : Except String (List Nat) :=
  match versionEntry s fileID versionID with
  | none => .error "file not found"
  | some ent =>
    if calculateChecksum ent.data = ent.checksum then .ok ent.data
    else .error "checksum mismatch: data corrupted"

/-- `DeleteFile`: remove the version (`os.RemoveAll`, a no-op when absent),
then list the container — which fails when the container itself is absent —
and remove the container when no versions remain. -/
def deleteFile (s : NodeStore) (fileID versionID : String) : Except String NodeStore :=
  match alGet? s.files fileID with
  | none => .error "file not found"
  | some vers =>
    let rest := alDel vers versionID
    if rest.isEmpty then .ok ⟨alDel s.files fileID⟩
    else .ok ⟨alSet s.files fileID rest⟩

/-- `DeleteFile` with the error discarded, as the coordinator's cleanup
does; the failing case leaves the state unchanged (the version path was
already absent). -/
def deleteApplied (s : NodeStore) (fileID versionID : String) : NodeStore :=
  match deleteFile s fileID versionID with
  | .ok s2 => s2
  | .error _ => s

/-- `DeleteAllVersions`: remove the whole container in one step. -/
def deleteAllVersions (s : NodeStore) (fileID : String) : NodeStore :=
  ⟨alDel s.files fileID⟩

/-! ## The file manager coordinator (internal/manager/filemanager.go)

`meta` models the contents of the external metadata store (SaveMetadata
upserts by fileID).  The generated UUIDs, the per-node store outcomes and
the metadata-save outcome are external inputs, passed as parameters. -/

/-- A `metadata.Version` (timestamps are not modelled). -/
structure Version where
  versionID : String
  size : Nat
  nodes : List String
deriving Repr, DecidableEq

/-- A `metadata.FileMetadata` (timestamps are not modelled). -/
structure FileMetadata where
  fileID : String
  filename : String
  size : Nat
  contentType : String
  replicas : List String
  versions : List Version
deriving Repr, DecidableEq

/-- The coordinator state. -/
structure FileManager where
  nodes : List (String × NodeStore)
  hashRing : ConsistentHash
  meta : List (String × FileMetadata)
  replicaFactor : Nat
deriving Repr, DecidableEq

/-- One iteration of the store loop of `UploadFile`: skip an unregistered
node, attempt `StoreFile` (outcome injected by `storeOk`; a failure is
logged and skipped), and append a succeeding node to the collected list. -/
def storeStep (fileID versionID : String) (storeOk : String → Bool) (data : List Nat)
    (acc : FileManager × List String) (nodeID : String) : FileManager × List String :=
  match alGet? acc.1.nodes nodeID with
  | none => acc
  | some ns =>
    if storeOk nodeID then
      ({ acc.1 with nodes := alSet acc.1.nodes nodeID (storeFile ns fileID versionID data) },
       acc.2 ++ [nodeID])
    else acc

/-- The store loop of `UploadFile` over the candidate nodes, in ring order. -/
def storePhase (fm : FileManager) (fileID versionID : String) (storeOk : String → Bool)
    (data : List Nat) (nodeIDs : List String) : FileManager × List String :=
  nodeIDs.foldl (storeStep fileID versionID storeOk data) (fm, [])

/-- One iteration of `cleanupFailedUpload`: delete `(fileID, versionID)` on
the node when it is still present in the registry, ignoring the delete's
error. -/
def cleanupStep (fileID versionID : String) (fm : FileManager) (nodeID : String) : FileManager :=
  match alGet? fm.nodes nodeID with
  | none => fm
  | some ns => { fm with nodes := alSet fm.nodes nodeID (deleteApplied ns fileID versionID) }

/-- `cleanupFailedUpload`: delete `(fileID, versionID)` on every listed
node still present in the registry, ignoring individual delete errors. -/
def cleanupFailedUpload (fm : FileManager) (fileID versionID : String)
    (nodeIDs : List String) : FileManager :=
  nodeIDs.foldl (cleanupStep fileID versionID) fm

/-- `UploadFile`: ring query, fail when no candidates; store fan-out; fail
when no store succeeded; metadata save (outcome injected by `saveErr`),
with compensating cleanup and error propagation when the save fails. -/
def uploadFile (fm : FileManager) (fileID versionID : String) (storeOk : String → Bool)
    (saveErr : Option String) (filename : String) (data : List Nat) (contentType : String) :
    FileManager × Except String FileMetadata :=
  let nodeIDs := getNodes fm.hashRing fileID
  if nodeIDs.isEmpty then (fm, .error "no storage nodes available")
  else
    let sp := storePhase fm fileID versionID storeOk data nodeIDs
    if sp.2.isEmpty then (sp.1, .error "failed to store file on any node")
    else
      let md : FileMetadata := ⟨fileID, filename, data.length, contentType, sp.2,
        [⟨versionID, data.length, sp.2⟩]⟩
      match saveErr with
      | none => ({ sp.1 with meta := alSet sp.1.meta fileID md }, .ok md)
      | some e => (cleanupFailedUpload sp.1 fileID versionID sp.2, .error e)

/-- The wrapped failure of the download loop; Go's `%w` of a nil error
renders as `%!w(<nil>)` when every node was skipped. -/
def replicaFailMsg (lastErr : Option String) : String :=
  "failed to retrieve file from any replica: " ++
    match lastErr with
    | some e => e
    | none => "%!w(<nil>)"

/-- The retrieval loop of `DownloadFile`: walk the recorded nodes in order,
skip ones absent from the registry, return the first successful retrieve,
and otherwise fail carrying the last error observed. -/
def tryNodes (reg : List (String × NodeStore)) (fileID verID : String) :
    List String → Option String → Except String (List Nat)
  | [], lastErr => .error (replicaFailMsg lastErr)
  | nodeID :: rest, lastErr =>
    match alGet? reg nodeID with
    | none => tryNodes reg fileID verID rest lastErr
    | some ns =>
      match retrieveFile ns fileID verID with
      | .ok d => .ok d
      | .error e => tryNodes reg fileID verID rest (some e)

/-- `DownloadFile`: metadata fetch (its error wrapped as "file not found"),
version selection (exact match, or the last version when none is named),
then the retrieval loop over the version's recorded nodes. -/
def downloadFile (fm : FileManager) (fileID versionID : String) :
    Except String (List Nat × FileMetadata) :=
  match alGet? fm.meta fileID with
  | none => .error "file not found"
  | some md =>
    let target : Except String Version :=
      if versionID = "" then
        match md.versions.getLast? with
        | none => .error "no versions available"
        | some tv => .ok tv
      else
        match md.versions.find? (fun v => v.versionID == versionID) with
        | none => .error "version not found"
        | some tv => .ok tv
    match target with
    | .error e => .error e
    | .ok tv =>
      match tryNodes fm.nodes fileID tv.versionID tv.nodes none with
      | .ok d => .ok (d, md)
      | .error e => .error e

/-- Altering the persisted data bytes of a stored blob while leaving the
persisted checksum unchanged: the corruption scenario of the spec's
integrity property (an external action on the node's storage, not code of
the repository). -/
def corruptData (s : NodeStore) (fileID versionID : String) (newData : List Nat) : NodeStore :=
  match alGet? s.files fileID with
  | none => s
  | some vers =>
    match alGet? vers versionID with
    | none => s
    | some ent => ⟨alSet s.files fileID (alSet vers versionID ⟨newData, ent.checksum⟩)⟩

/-- The blob stored for (fileID, versionID) on a registered node, if any:
the coordinator-level observable of stores and cleanup deletes. -/
def regEntry (fm : FileManager) (nodeID fileID versionID : String) : Option VersionEntry :=
  (alGet? fm.nodes nodeID).bind (fun ns => versionEntry ns fileID versionID)

/-- The outcome of one download attempt at a node: `none` when the node is
absent from the live registry (and is skipped), otherwise the result of
`RetrieveFile` there. -/
def attempt (reg : List (String × NodeStore)) (fileID verID nodeID : String) :
    Option (Except String (List Nat)) :=
  (alGet? reg nodeID).map (fun ns => retrieveFile ns fileID verID)

/-- The spec's version-selection rule for `DownloadFile`: an empty
versionID selects the last element of the version list; a non-empty one
selects the first exact `VersionID` match. -/
def SelectedVersion (md : FileMetadata) (versionID : String) (tv : Version) : Prop :=
  (versionID = "" ∧ md.versions.getLast? = some tv) ∨
  (versionID ≠ "" ∧ ∃ pre post, md.versions = pre ++ tv :: post ∧
    tv.versionID = versionID ∧ ∀ ver ∈ pre, ver.versionID ≠ versionID)

/-- Ring well-formedness: the position map's keys are exactly the ring
entries (as multisets) and are pairwise distinct.  This holds for every
ring built by `AddNode`/`RemoveNode` in the absence of 32-bit hash
collisions between distinct virtual keys. -/
def WF (ch : ConsistentHash) : Prop :=
  (ch.nodes.map Prod.fst).Nodup ∧ (ch.nodes.map Prod.fst).Perm ch.hashRing

instance (ch : ConsistentHash) : Decidable (WF ch) := by
  unfold WF
  infer_instance

/-- The number of distinct physical node identifiers registered in the
ring's position map. -/
def nodeCount (ch : ConsistentHash) : Nat :=
  ((ch.nodes.map Prod.snd).dedup).length

/-- The canonical position-map contents for a list of present nodes. -/
def pairsOf (virtualNodes : Nat) (ns : List String) : List (Nat × String) :=
  ns.flatMap (fun n => (List.range virtualNodes).map
    (fun i => (hashKey (virtualKey n i), n)))

/-- The canonical ring contents (as a multiset) for a list of present
nodes. -/
def ringOf (virtualNodes : Nat) (ns : List String) : List Nat :=
  ns.flatMap (nodeHashes virtualNodes)

/-- The ring state reached from the empty ring by adding exactly the nodes
of `ns`: ring entries are the virtual hashes of `ns` (sorted), and the
position map holds their bindings. -/
def RingModels (ch : ConsistentHash) (ns : List String) : Prop :=
  ch.hashRing.Perm (ringOf ch.virtualNodes ns) ∧
  List.Sorted (· ≤ ·) ch.hashRing ∧
  ch.nodes.Perm (pairsOf ch.virtualNodes ns)

/-- `hashKey` is collision-free on the virtual keys of the given node
names: distinct (node, replica-index) pairs hash to distinct 32-bit
positions. -/
def HashInjOn (virtualNodes : Nat) (names : List String) : Prop :=
  ∀ n ∈ names, ∀ m ∈ names, ∀ i ∈ List.range virtualNodes,
    ∀ j ∈ List.range virtualNodes,
      hashKey (virtualKey n i) = hashKey (virtualKey m j) → n = m ∧ i = j

instance (virtualNodes : Nat) (names : List String) :
    Decidable (HashInjOn virtualNodes names) := by
  unfold HashInjOn
  infer_instance

/-- All node names appearing in a sequence of ring mutations. -/
def opsNames : List RingOp → List String
  | [] => []
  | .add n :: rest => n :: opsNames rest
  | .remove n :: rest => n :: opsNames rest

/-- The list of present nodes after a sequence of ring mutations, starting
from the given present list. -/
def presentAfter (ns : List String) : List RingOp → List String
  | [] => ns
  | .add n :: rest => presentAfter (n :: ns) rest
  | .remove n :: rest => presentAfter (ns.erase n) rest

/-- A mutation sequence never adds a node that is already present. -/
def disciplinedFrom (ns : List String) : List RingOp → Bool
  | [] => true
  | .add n :: rest => !(decide (n ∈ ns)) && disciplinedFrom (n :: ns) rest
  | .remove n :: rest => disciplinedFrom (ns.erase n) rest

/-- A concrete file record for evaluating download behavior: two versions,
the latest recorded on an unregistered node, a registered node without the
blob, and a registered node holding it. -/
def mdC5 : FileMetadata :=
  ⟨"f", "a.txt", 1, "t", ["good"],
    [⟨"v1", 1, []⟩, ⟨"v2", 1, ["gone", "bad", "good"]⟩]⟩

/-- A concrete coordinator where the node "good" holds version "v2" of
file "f" and "bad" does not; "gone" is not registered. -/
def fmC5 : FileManager :=
  ⟨[("bad", ⟨[]⟩), ("good", storeFile ⟨[]⟩ "f" "v2" [9])],
    newConsistentHash 1 2, [("f", mdC5)], 2⟩

/-- A concrete coordinator where every registered node lacks the blob, so
every download attempt fails. -/
def fmC5b : FileManager :=
  ⟨[("bad", ⟨[]⟩), ("good", ⟨[]⟩)], newConsistentHash 1 2, [("f", mdC5)], 2⟩

/-! ## Association-list map lemmas -/

section AssocLemmas

variable {κ β : Type} [BEq κ] [LawfulBEq κ]

theorem alGet?_cons (p : κ × β) (t : List (κ × β)) (k' : κ) :
    alGet? (p :: t) k' = if (p.1 == k') = true then some p.2 else alGet? t k' := by
  unfold alGet?
  by_cases hk : (p.1 == k') = true
  · rw [@List.find?_cons_of_pos _ (fun q => q.1 == k') p t hk, if_pos hk]
    rfl
  · rw [@List.find?_cons_of_neg _ (fun q => q.1 == k') p t hk, if_neg hk]

theorem alGet?_set_self (m : List (κ × β)) (k : κ) (v : β) :
    alGet? (alSet m k v) k = some v := by
  show alGet? ((k, v) :: m.filter (fun p => !(p.1 == k))) k = some v
  rw [alGet?_cons, if_pos (by simp)]

theorem alGet?_filter_ne (m : List (κ × β)) (k k' : κ) (h : ¬ k' = k) :
    alGet? (m.filter (fun p => !(p.1 == k))) k' = alGet? m k' := by
  induction m with
  | nil => rfl
  | cons p t ih =>
    rw [List.filter_cons]
    by_cases hp : p.1 = k
    · rw [if_neg (by simp [hp]), alGet?_cons p t k',
        if_neg (by simp only [beq_iff_eq, hp]; exact fun hk => h hk.symm)]
      exact ih
    · rw [if_pos (by simp [hp]), alGet?_cons, alGet?_cons]
      by_cases hk' : (p.1 == k') = true
      · rw [if_pos hk', if_pos hk']
      · rw [if_neg hk', if_neg hk']
        exact ih

theorem alGet?_set_ne (m : List (κ × β)) (k k' : κ) (v : β) (h : ¬ k' = k) :
    alGet? (alSet m k v) k' = alGet? m k' := by
  show alGet? ((k, v) :: m.filter (fun p => !(p.1 == k))) k' = alGet? m k'
  rw [alGet?_cons, if_neg (by simp only [beq_iff_eq]; exact fun hk => h hk.symm)]
  exact alGet?_filter_ne m k k' h

theorem alGet?_del_self (m : List (κ × β)) (k : κ) :
    alGet? (alDel m k) k = none := by
  unfold alGet? alDel
  rw [List.find?_eq_none.mpr]
  · rfl
  · intro p hp
    have := (List.mem_filter.mp hp).2
    simpa using this

theorem alGet?_del_ne (m : List (κ × β)) (k k' : κ) (h : ¬ k' = k) :
    alGet? (alDel m k) k' = alGet? m k' :=
  alGet?_filter_ne m k k' h

theorem alGet?_mem {m : List (κ × β)} {k : κ} {v : β} (h : alGet? m k = some v) :
    ∃ p ∈ m, p.1 = k ∧ p.2 = v := by
  unfold alGet? at h
  cases hf : m.find? (fun p => p.1 == k) with
  | none => rw [hf] at h; exact absurd h (by simp)
  | some p =>
    rw [hf] at h
    refine ⟨p, List.mem_of_find?_eq_some hf, ?_, ?_⟩
    · have := List.find?_some hf
      simpa using this
    · simpa using h

theorem alDel_alDel (m : List (κ × β)) (k : κ) :
    alDel (alDel m k) k = alDel m k := by
  unfold alDel
  rw [List.filter_filter]
  exact List.filter_congr (fun p _ => by cases h : p.1 == k <;> simp [h])

end AssocLemmas

/-! ## Storage node engine: round trip, corruption, deletion (C2, C3, C9) -/

/-- Claim C2: for every fileID `f`, versionID `v` and byte sequence `data`
(including the empty one), after a successful `Store(f, v, data)` on a
node, `Retrieve(f, v)` on the same node succeeds and returns bytes equal to
`data`. -/
theorem store_retrieve_roundtrip (s : NodeStore) (fileID versionID : String)
    (data : List Nat) :
    retrieveFile (storeFile s fileID versionID data) fileID versionID = .ok data := by
  unfold retrieveFile versionEntry storeFile
  rw [alGet?_set_self]
  simp [alGet?_set_self]

/-- Claim C3: if the persisted data bytes of a stored blob are altered
while the persisted checksum is left unchanged, `Retrieve` fails with the
distinct checksum-mismatch error instead of returning the altered bytes
(conditioned on the two SHA-256 checksums differing, which is what the
recomputation can detect). -/
theorem retrieve_detects_corruption (s : NodeStore) (fileID versionID : String)
    (data newData : List Nat)
    (hne : calculateChecksum newData ≠ calculateChecksum data) :
    retrieveFile (corruptData (storeFile s fileID versionID data) fileID versionID newData)
      fileID versionID = .error "checksum mismatch: data corrupted" := by
  unfold corruptData storeFile
  simp only [alGet?_set_self]
  unfold retrieveFile versionEntry
  simp [alGet?_set_self, hne]

/-- Witness for C3 at concrete inputs: storing the byte string "a" and
corrupting it to "b" is detected. -/
theorem retrieve_detects_corruption_witness :
    calculateChecksum [98] ≠ calculateChecksum [97] ∧
    retrieveFile (corruptData (storeFile ⟨[]⟩ "f" "v" [97]) "f" "v" [98]) "f" "v" =
      .error "checksum mismatch: data corrupted" :=
  ⟨by decide, retrieve_detects_corruption ⟨[]⟩ "f" "v" [97] [98] (by decide)⟩

theorem retrieveFile_congr (s s' : NodeStore) (fileID versionID : String)
    (h : versionEntry s fileID versionID = versionEntry s' fileID versionID) :
    retrieveFile s fileID versionID = retrieveFile s' fileID versionID := by
  unfold retrieveFile
  rw [h]

theorem alDel_of_not_mem {κ β : Type} [BEq κ] [LawfulBEq κ] {m : List (κ × β)} {k : κ}
    (h : k ∉ m.map Prod.fst) : alDel m k = m := by
  unfold alDel
  apply List.filter_eq_self.mpr
  intro p hp
  have hpk : p.1 ≠ k := fun hk => h (hk ▸ List.mem_map_of_mem Prod.fst hp)
  simp [hpk]

/-- Claim C9: deleting the same (fileID, versionID) pair twice does not
fail the second time when sibling versions remain, and leaves every sibling
version intact and retrievable; and deleting every version of a fileID one
at a time removes the fileID-level container entirely. -/
theorem delete_twice_and_drain :
    (∀ (s : NodeStore) (fileID vid wid : String) (ent : VersionEntry),
       wid ≠ vid → versionEntry s fileID wid = some ent →
       versionEntry (deleteApplied s fileID vid) fileID wid = some ent ∧
       ∃ s2, deleteFile (deleteApplied s fileID vid) fileID vid = .ok s2 ∧
         versionEntry s2 fileID wid = some ent ∧
         retrieveFile s2 fileID wid = retrieveFile s fileID wid) ∧
    (∀ (s : NodeStore) (fileID : String) (vers : List (String × VersionEntry)),
       alGet? s.files fileID = some vers → vers ≠ [] → (vers.map Prod.fst).Nodup →
       alGet? ((vers.map Prod.fst).foldl (fun st vid => deleteApplied st fileID vid) s).files
         fileID = none) := by
  constructor
  · intro s fileID vid wid ent hne hw
    unfold versionEntry at hw
    cases hvers : alGet? s.files fileID with
    | none => rw [hvers] at hw; simp at hw
    | some vers =>
      rw [hvers] at hw
      simp only [Option.some_bind] at hw
      have hrest : alGet? (alDel vers vid) wid = some ent := by
        rw [alGet?_del_ne vers vid wid hne]; exact hw
      have hrestne : alDel vers vid ≠ [] := by
        intro hnil
        rw [hnil] at hrest
        simp [alGet?] at hrest
      have hrestE : (alDel vers vid).isEmpty = false := by
        cases hd : alDel vers vid with
        | nil => exact absurd hd hrestne
        | cons a t => rfl
      have hdel1 : deleteFile s fileID vid = .ok ⟨alSet s.files fileID (alDel vers vid)⟩ := by
        simp [deleteFile, hvers, hrestE]
      have happ1 : deleteApplied s fileID vid = ⟨alSet s.files fileID (alDel vers vid)⟩ := by
        unfold deleteApplied
        rw [hdel1]
      have hent1 : versionEntry (deleteApplied s fileID vid) fileID wid = some ent := by
        rw [happ1]
        unfold versionEntry
        rw [alGet?_set_self]
        simpa using hrest
      refine ⟨hent1, ⟨⟨alSet (alSet s.files fileID (alDel vers vid)) fileID (alDel vers vid)⟩,
        ?_, ?_, ?_⟩⟩
      · rw [happ1]
        simp [deleteFile, alGet?_set_self, alDel_alDel, hrestE]
      · unfold versionEntry
        rw [alGet?_set_self]
        simpa using hrest
      · apply retrieveFile_congr
        unfold versionEntry
        rw [alGet?_set_self, hvers]
        simp only [Option.some_bind]
        rw [hrest, hw]
  · intro s fileID vers
    induction vers generalizing s with
    | nil => intro _ hne _; exact absurd rfl hne
    | cons p rest ih =>
      intro hvers _ hnd
      rw [List.map_cons] at hnd
      have hv0 : p.1 ∉ rest.map Prod.fst := (List.nodup_cons.mp hnd).1
      have hdelcons : alDel (p :: rest) p.1 = rest := by
        show List.filter _ (p :: rest) = rest
        rw [List.filter_cons, if_neg (by simp)]
        exact alDel_of_not_mem hv0
      rw [List.map_cons, List.foldl_cons]
      cases rest with
      | nil =>
        have hstep : deleteApplied s fileID p.1 = ⟨alDel s.files fileID⟩ := by
          simp [deleteApplied, deleteFile, hvers, hdelcons]
        rw [List.map_nil, List.foldl_nil, hstep]
        exact alGet?_del_self s.files fileID
      | cons q t =>
        have hstep : deleteApplied s fileID p.1 = ⟨alSet s.files fileID (q :: t)⟩ := by
          simp [deleteApplied, deleteFile, hvers, hdelcons]
        rw [hstep]
        exact ih ⟨alSet s.files fileID (q :: t)⟩ (alGet?_set_self _ _ _)
          (by simp) ((List.nodup_cons.mp hnd).2)

/-- Witness for C9: a node holding versions "v" and "w" of file "f";
deleting "v" twice leaves "w" intact, and draining both versions removes
the container. -/
theorem delete_twice_and_drain_witness :
    (versionEntry (deleteApplied ⟨[("f", [("v", ⟨[1], "cv"⟩), ("w", ⟨[2], "cw"⟩)])]⟩ "f" "v")
        "f" "w" = some ⟨[2], "cw"⟩ ∧
      ∃ s2, deleteFile (deleteApplied ⟨[("f", [("v", ⟨[1], "cv"⟩), ("w", ⟨[2], "cw"⟩)])]⟩
          "f" "v") "f" "v" = .ok s2 ∧
        versionEntry s2 "f" "w" = some ⟨[2], "cw"⟩ ∧
        retrieveFile s2 "f" "w" =
          retrieveFile ⟨[("f", [("v", ⟨[1], "cv"⟩), ("w", ⟨[2], "cw"⟩)])]⟩ "f" "w") ∧
    alGet? ((([("v", (⟨[1], "cv"⟩ : VersionEntry)), ("w", ⟨[2], "cw"⟩)]).map Prod.fst).foldl
        (fun st vid => deleteApplied st "f" vid)
        ⟨[("f", [("v", ⟨[1], "cv"⟩), ("w", ⟨[2], "cw"⟩)])]⟩).files "f" = none :=
  ⟨delete_twice_and_drain.1 ⟨[("f", [("v", ⟨[1], "cv"⟩), ("w", ⟨[2], "cw"⟩)])]⟩ "f" "v" "w"
      ⟨[2], "cw"⟩ (by decide) (by decide),
    delete_twice_and_drain.2 ⟨[("f", [("v", ⟨[1], "cv"⟩), ("w", ⟨[2], "cw"⟩)])]⟩ "f"
      [("v", ⟨[1], "cv"⟩), ("w", ⟨[2], "cw"⟩)] (by decide) (by decide) (by decide)⟩

/-! ## Coordinator: compensating cleanup on save failure (C4) -/

theorem deleteApplied_absent (ns : NodeStore) (fileID versionID : String) :
    versionEntry (deleteApplied ns fileID versionID) fileID versionID = none := by
  cases hf : alGet? ns.files fileID with
  | none => simp [deleteApplied, deleteFile, versionEntry, hf]
  | some vers =>
    by_cases he : (alDel vers versionID).isEmpty = true
    · simp [deleteApplied, deleteFile, versionEntry, hf, he, alGet?_del_self]
    · simp [deleteApplied, deleteFile, versionEntry, hf, he, alGet?_set_self,
        alGet?_del_self]

theorem cleanup_keeps_absent (fileID versionID : String) :
    ∀ (l : List String) (fm : FileManager) (n : String),
      regEntry fm n fileID versionID = none →
      regEntry (cleanupFailedUpload fm fileID versionID l) n fileID versionID = none := by
  intro l
  induction l with
  | nil => intro fm n h; exact h
  | cons m rest ih =>
    intro fm n h
    show regEntry ((rest.foldl (cleanupStep fileID versionID)) (cleanupStep fileID versionID fm m))
      n fileID versionID = none
    apply ih
    unfold cleanupStep
    cases hm : alGet? fm.nodes m with
    | none => exact h
    | some ns =>
      by_cases hnm : n = m
      · subst hnm
        unfold regEntry
        simp only [alGet?_set_self, Option.some_bind]
        exact deleteApplied_absent ns fileID versionID
      · unfold regEntry at h ⊢
        rw [show (({ fm with nodes := alSet fm.nodes m (deleteApplied ns fileID versionID) } :
            FileManager).nodes) = alSet fm.nodes m (deleteApplied ns fileID versionID) from rfl,
          alGet?_set_ne fm.nodes m n _ hnm]
        exact h

theorem cleanup_deletes (fileID versionID : String) :
    ∀ (l : List String) (fm : FileManager) (n : String), n ∈ l →
      (alGet? fm.nodes n).isSome = true →
      regEntry (cleanupFailedUpload fm fileID versionID l) n fileID versionID = none := by
  intro l
  induction l with
  | nil => intro fm n h; exact absurd h (List.not_mem_nil n)
  | cons m rest ih =>
    intro fm n hmem hreg
    show regEntry ((rest.foldl (cleanupStep fileID versionID)) (cleanupStep fileID versionID fm m))
      n fileID versionID = none
    by_cases hnm : n = m
    · subst hnm
      apply cleanup_keeps_absent
      cases hm : alGet? fm.nodes n with
      | none => rw [hm] at hreg; exact absurd hreg (by simp)
      | some ns =>
        unfold cleanupStep regEntry
        rw [hm]
        simp only [alGet?_set_self, Option.some_bind]
        exact deleteApplied_absent ns fileID versionID
    · have hrest : n ∈ rest := by
        cases List.mem_cons.mp hmem with
        | inl h => exact absurd h hnm
        | inr h => exact h
      apply ih _ n hrest
      unfold cleanupStep
      cases hm : alGet? fm.nodes m with
      | none => exact hreg
      | some ns =>
        rw [show (({ fm with nodes := alSet fm.nodes m (deleteApplied ns fileID versionID) } :
            FileManager).nodes) = alSet fm.nodes m (deleteApplied ns fileID versionID) from rfl,
          alGet?_set_ne fm.nodes m n _ hnm]
        exact hreg

theorem storePhase_stored_registered (fileID versionID : String) (storeOk : String → Bool)
    (data : List Nat) :
    ∀ (l : List String) (a : FileManager × List String),
      (∀ n ∈ a.2, (alGet? a.1.nodes n).isSome = true) →
      ∀ n ∈ (l.foldl (storeStep fileID versionID storeOk data) a).2,
        (alGet? (l.foldl (storeStep fileID versionID storeOk data) a).1.nodes n).isSome = true := by
  intro l
  induction l with
  | nil => intro a h; exact h
  | cons m rest ih =>
    intro a h
    rw [List.foldl_cons]
    apply ih
    cases hm : alGet? a.1.nodes m with
    | none => simpa only [storeStep, hm] using h
    | some ns =>
      by_cases hok : storeOk m = true
      · simp only [storeStep, hm, hok, if_true]
        intro n hn
        show (alGet? (alSet a.1.nodes m (storeFile ns fileID versionID data)) n).isSome = true
        by_cases hnm : n = m
        · subst hnm
          rw [alGet?_set_self]
          rfl
        · rw [alGet?_set_ne a.1.nodes m n _ hnm]
          cases List.mem_append.mp hn with
          | inl hn' => exact h n hn'
          | inr hn' =>
            simp only [List.mem_singleton] at hn'
            exact absurd hn' hnm
      · simp only [storeStep, hm, hok, if_false]
        exact h

/-- Claim C4: when the metadata save fails after a non-empty set of nodes
stored (fileID, versionID), `UploadFile` runs the compensating cleanup —
after it, no node of that set still holds the blob — and propagates the
save error without returning a record. -/
theorem upload_save_failure_cleanup (fm : FileManager)
    (fileID versionID filename contentType e : String)
    (storeOk : String → Bool) (data : List Nat) (fm1 : FileManager) (stored : List String)
    (hsp : storePhase fm fileID versionID storeOk data (getNodes fm.hashRing fileID) =
      (fm1, stored))
    (hne : stored ≠ []) :
    uploadFile fm fileID versionID storeOk (some e) filename data contentType =
      (cleanupFailedUpload fm1 fileID versionID stored, .error e) ∧
    ∀ n ∈ stored,
      regEntry (cleanupFailedUpload fm1 fileID versionID stored) n fileID versionID = none := by
  have hnn : (getNodes fm.hashRing fileID).isEmpty = false := by
    cases hg : getNodes fm.hashRing fileID with
    | nil =>
      rw [hg] at hsp
      unfold storePhase at hsp
      rw [List.foldl_nil] at hsp
      cases hsp
      exact absurd rfl hne
    | cons a t => rfl
  have hse : stored.isEmpty = false := by
    cases hs : stored with
    | nil => exact absurd hs hne
    | cons a t => rfl
  constructor
  · simp only [uploadFile, hnn, hsp, hse, Bool.false_eq_true, if_false]
  · intro n hn
    apply cleanup_deletes fileID versionID stored fm1 n hn
    have hreg := storePhase_stored_registered fileID versionID storeOk data
      (getNodes fm.hashRing fileID) (fm, [])
      (by intro n' hn'; exact absurd hn' (List.not_mem_nil n'))
    unfold storePhase at hsp
    rw [hsp] at hreg
    exact hreg n hn

/-- Witness for C4: one registered node, a ring containing it, and a
failing metadata save. -/
theorem upload_save_failure_cleanup_witness :
    uploadFile ⟨[("a", ⟨[]⟩)], addNode (newConsistentHash 1 2) "a", [], 2⟩ "f" "v"
        (fun _ => true) (some "boom") "a.txt" [7] "text/plain" =
      (cleanupFailedUpload
        (storePhase ⟨[("a", ⟨[]⟩)], addNode (newConsistentHash 1 2) "a", [], 2⟩ "f" "v"
          (fun _ => true) [7]
          (getNodes (addNode (newConsistentHash 1 2) "a") "f")).1 "f" "v"
        (storePhase ⟨[("a", ⟨[]⟩)], addNode (newConsistentHash 1 2) "a", [], 2⟩ "f" "v"
          (fun _ => true) [7]
          (getNodes (addNode (newConsistentHash 1 2) "a") "f")).2, .error "boom") ∧
    ∀ n ∈ (storePhase ⟨[("a", ⟨[]⟩)], addNode (newConsistentHash 1 2) "a", [], 2⟩ "f" "v"
        (fun _ => true) [7] (getNodes (addNode (newConsistentHash 1 2) "a") "f")).2,
      regEntry (cleanupFailedUpload
        (storePhase ⟨[("a", ⟨[]⟩)], addNode (newConsistentHash 1 2) "a", [], 2⟩ "f" "v"
          (fun _ => true) [7]
          (getNodes (addNode (newConsistentHash 1 2) "a") "f")).1 "f" "v"
        (storePhase ⟨[("a", ⟨[]⟩)], addNode (newConsistentHash 1 2) "a", [], 2⟩ "f" "v"
          (fun _ => true) [7]
          (getNodes (addNode (newConsistentHash 1 2) "a") "f")).2) n "f" "v" = none :=
  upload_save_failure_cleanup ⟨[("a", ⟨[]⟩)], addNode (newConsistentHash 1 2) "a", [], 2⟩
    "f" "v" "a.txt" "text/plain" "boom" (fun _ => true) [7] _ _ rfl (by decide)

/-! ## Coordinator: download failover behavior (C5) -/

theorem tryNodes_ok (reg : List (String × NodeStore)) (fileID verID : String) :
    ∀ (pre : List String) (nodeID : String) (post : List String) (d : List Nat)
      (lastErr : Option String),
      (∀ m ∈ pre, ∀ dd, attempt reg fileID verID m ≠ some (.ok dd)) →
      attempt reg fileID verID nodeID = some (.ok d) →
      tryNodes reg fileID verID (pre ++ nodeID :: post) lastErr = .ok d := by
  intro pre
  induction pre with
  | nil =>
    intro nodeID post d lastErr _ hok
    unfold attempt at hok
    cases halg : alGet? reg nodeID with
    | none => rw [halg] at hok; simp at hok
    | some ns =>
      rw [halg] at hok
      simp only [Option.map_some', Option.some.injEq] at hok
      rw [List.nil_append]
      simp only [tryNodes, halg, hok]
  | cons m pre' ih =>
    intro nodeID post d lastErr hpre hok
    rw [List.cons_append]
    cases halg : alGet? reg m with
    | none =>
      simp only [tryNodes, halg]
      exact ih nodeID post d lastErr (fun m' hm' => hpre m' (List.mem_cons_of_mem m hm')) hok
    | some ns =>
      cases hret : retrieveFile ns fileID verID with
      | ok dd =>
        exact absurd (by simp [attempt, halg, hret])
          (hpre m (List.mem_cons_self m pre') dd)
      | error err =>
        simp only [tryNodes, halg, hret]
        exact ih nodeID post d (some err)
          (fun m' hm' => hpre m' (List.mem_cons_of_mem m hm')) hok

theorem tryNodes_skips (reg : List (String × NodeStore)) (fileID verID : String) :
    ∀ (post : List String) (le : Option String),
      (∀ m ∈ post, attempt reg fileID verID m = none) →
      tryNodes reg fileID verID post le = .error (replicaFailMsg le) := by
  intro post
  induction post with
  | nil => intro le _; rfl
  | cons m rest ih =>
    intro le h
    have hm : alGet? reg m = none := by
      have h0 := h m (List.mem_cons_self m rest)
      unfold attempt at h0
      cases halg : alGet? reg m with
      | none => rfl
      | some ns => rw [halg] at h0; simp at h0
    simp only [tryNodes, hm]
    exact ih le (fun m' hm' => h m' (List.mem_cons_of_mem m hm'))

theorem tryNodes_last_error (reg : List (String × NodeStore)) (fileID verID : String) :
    ∀ (pre : List String) (nodeID : String) (post : List String) (e : String)
      (le : Option String),
      (∀ m ∈ pre, ∀ dd, attempt reg fileID verID m ≠ some (.ok dd)) →
      attempt reg fileID verID nodeID = some (.error e) →
      (∀ m ∈ post, attempt reg fileID verID m = none) →
      tryNodes reg fileID verID (pre ++ nodeID :: post) le =
        .error ("failed to retrieve file from any replica: " ++ e) := by
  intro pre
  induction pre with
  | nil =>
    intro nodeID post e le _ herr hpost
    unfold attempt at herr
    cases halg : alGet? reg nodeID with
    | none => rw [halg] at herr; simp at herr
    | some ns =>
      rw [halg] at herr
      simp only [Option.map_some', Option.some.injEq] at herr
      rw [List.nil_append]
      simp only [tryNodes, halg, herr]
      exact tryNodes_skips reg fileID verID post (some e) hpost
  | cons m pre' ih =>
    intro nodeID post e le hpre herr hpost
    rw [List.cons_append]
    cases halg : alGet? reg m with
    | none =>
      simp only [tryNodes, halg]
      exact ih nodeID post e le (fun m' hm' => hpre m' (List.mem_cons_of_mem m hm')) herr hpost
    | some ns =>
      cases hret : retrieveFile ns fileID verID with
      | ok dd =>
        exact absurd (by simp [attempt, halg, hret])
          (hpre m (List.mem_cons_self m pre') dd)
      | error err =>
        simp only [tryNodes, halg, hret]
        exact ih nodeID post e (some err)
          (fun m' hm' => hpre m' (List.mem_cons_of_mem m hm')) herr hpost

theorem find?_first_match (versionID : String) (tv : Version) :
    ∀ (pre post : List Version), tv.versionID = versionID →
      (∀ ver ∈ pre, ver.versionID ≠ versionID) →
      (pre ++ tv :: post).find? (fun v => v.versionID == versionID) = some tv := by
  intro pre
  induction pre with
  | nil =>
    intro post htv _
    rw [List.nil_append]
    exact List.find?_cons_of_pos _ (by simp [htv])
  | cons ver pre' ih =>
    intro post htv hpre
    rw [List.cons_append, List.find?_cons_of_neg _
      (by simp only [beq_iff_eq]; exact hpre ver (List.mem_cons_self ver pre'))]
    exact ih post htv (fun v hv => hpre v (List.mem_cons_of_mem ver hv))

theorem downloadFile_eq_tryNodes (fm : FileManager) (fileID versionID : String)
    (md : FileMetadata) (tv : Version)
    (hmd : alGet? fm.meta fileID = some md) (hsel : SelectedVersion md versionID tv) :
    downloadFile fm fileID versionID =
      match tryNodes fm.nodes fileID tv.versionID tv.nodes none with
      | .ok d => .ok (d, md)
      | .error e => .error e := by
  cases hsel with
  | inl h =>
    obtain ⟨hv, hlast⟩ := h
    subst hv
    simp [downloadFile, hmd, hlast]
  | inr h =>
    obtain ⟨hv, pre, post, hveq, hvid, hpre⟩ := h
    have hfind : md.versions.find? (fun v => v.versionID == versionID) = some tv := by
      rw [hveq]
      exact find?_first_match versionID tv pre post hvid hpre
    simp [downloadFile, hmd, hv, hfind]

/-- Claim C5: `DownloadFile` on an existing record fails with "version not
found" when a supplied versionID matches no version; selects the exact
match (resp. the last version when none is supplied), walks its recorded
nodes in order skipping unregistered ones, returns the first successful
retrieve, and when every attempt fails returns the wrapped replica error
carrying the last underlying error observed. -/
theorem download_behavior (fm : FileManager) (fileID : String) (md : FileMetadata)
    (hmd : alGet? fm.meta fileID = some md) :
    (∀ versionID, versionID ≠ "" → (∀ ver ∈ md.versions, ver.versionID ≠ versionID) →
      downloadFile fm fileID versionID = .error "version not found") ∧
    (∀ versionID tv pre nodeID post d, SelectedVersion md versionID tv →
      tv.nodes = pre ++ nodeID :: post →
      (∀ m ∈ pre, ∀ dd, attempt fm.nodes fileID tv.versionID m ≠ some (.ok dd)) →
      attempt fm.nodes fileID tv.versionID nodeID = some (.ok d) →
      downloadFile fm fileID versionID = .ok (d, md)) ∧
    (∀ versionID tv pre nodeID post e, SelectedVersion md versionID tv →
      tv.nodes = pre ++ nodeID :: post →
      (∀ m ∈ pre, ∀ dd, attempt fm.nodes fileID tv.versionID m ≠ some (.ok dd)) →
      attempt fm.nodes fileID tv.versionID nodeID = some (.error e) →
      (∀ m ∈ post, attempt fm.nodes fileID tv.versionID m = none) →
      downloadFile fm fileID versionID =
        .error ("failed to retrieve file from any replica: " ++ e)) := by
  refine ⟨?_, ?_, ?_⟩
  · intro versionID hv hnone
    have hfind : md.versions.find? (fun v => v.versionID == versionID) = none := by
      apply List.find?_eq_none.mpr
      intro v hvmem
      simp only [beq_iff_eq]
      exact hnone v hvmem
    simp [downloadFile, hmd, hv, hfind]
  · intro versionID tv pre nodeID post d hsel hnodes hpre hok
    rw [downloadFile_eq_tryNodes fm fileID versionID md tv hmd hsel, hnodes,
      tryNodes_ok fm.nodes fileID tv.versionID pre nodeID post d none hpre hok]
  · intro versionID tv pre nodeID post e hsel hnodes hpre herr hpost
    rw [downloadFile_eq_tryNodes fm fileID versionID md tv hmd hsel, hnodes,
      tryNodes_last_error fm.nodes fileID tv.versionID pre nodeID post e none hpre herr hpost]

theorem attempt_not_ok_of_none {reg : List (String × NodeStore)} {f v m : String}
    (h : attempt reg f v m = none) :
    ∀ dd, attempt reg f v m ≠ some (.ok dd) := by
  intro dd hc
  rw [h] at hc
  cases hc

theorem attempt_not_ok_of_error {reg : List (String × NodeStore)} {f v m e : String}
    (h : attempt reg f v m = some (.error e)) :
    ∀ dd, attempt reg f v m ≠ some (.ok dd) := by
  intro dd hc
  rw [h] at hc
  simp at hc

/-- Witness for C5: a missing versionID fails with "version not found";
with no versionID the last version is selected and retrieved from the
first registered node holding it, after skipping an unregistered node and
a failing node; and when every attempt fails the wrapped error carries the
last underlying error. -/
theorem download_behavior_witness :
    downloadFile fmC5 "f" "zzz" = .error "version not found" ∧
    downloadFile fmC5 "f" "" = .ok ([9], mdC5) ∧
    downloadFile fmC5b "f" "" =
      .error ("failed to retrieve file from any replica: " ++ "file not found") :=
  ⟨(download_behavior fmC5 "f" mdC5 (by decide)).1 "zzz" (by decide) (by decide),
    (download_behavior fmC5 "f" mdC5 (by decide)).2.1 ""
      ⟨"v2", 1, ["gone", "bad", "good"]⟩ ["gone", "bad"] "good" [] [9]
      (Or.inl ⟨rfl, by decide⟩) (by decide)
      (by
        intro m hm dd
        fin_cases hm
        · exact attempt_not_ok_of_none (by decide) dd
        · exact @attempt_not_ok_of_error fmC5.nodes "f" _ "bad" "file not found"
            (by decide) dd)
      (by decide),
    (download_behavior fmC5b "f" mdC5 (by decide)).2.2 ""
      ⟨"v2", 1, ["gone", "bad", "good"]⟩ ["gone", "bad"] "good" [] "file not found"
      (Or.inl ⟨rfl, by decide⟩) (by decide)
      (by
        intro m hm dd
        fin_cases hm
        · exact attempt_not_ok_of_none (by decide) dd
        · exact @attempt_not_ok_of_error fmC5b.nodes "f" _ "bad" "file not found"
            (by decide) dd)
      (by decide)
      (by intro m hm; exact absurd hm (List.not_mem_nil m))⟩

/-- Claim C10: `DownloadFile` with an empty versionID on a record whose
version list is empty fails with "no versions available" instead of
reading the last element of the empty list. -/
theorem download_no_versions (fm : FileManager) (fileID : String) (md : FileMetadata)
    (h1 : alGet? fm.meta fileID = some md) (h2 : md.versions = []) :
    downloadFile fm fileID "" = .error "no versions available" := by
  simp [downloadFile, h1, h2]

/-- Witness for C10 at a concrete record with an empty version list. -/
theorem download_no_versions_witness :
    downloadFile ⟨[], newConsistentHash 1 2, [("f", ⟨"f", "a.txt", 0, "text/plain", [], []⟩)], 2⟩
      "f" "" = .error "no versions available" :=
  download_no_versions _ "f" ⟨"f", "a.txt", 0, "text/plain", [], []⟩ (by decide) rfl

/-- Claim C6: when the hash ring returns no candidate nodes, `UploadFile`
fails immediately with "no storage nodes available", attempts no store, and
saves no metadata — the returned state is the input state unchanged. -/
theorem upload_no_nodes (fm : FileManager) (fileID versionID filename contentType : String)
    (storeOk : String → Bool) (saveErr : Option String) (data : List Nat)
    (h : getNodes fm.hashRing fileID = []) :
    uploadFile fm fileID versionID storeOk saveErr filename data contentType =
      (fm, .error "no storage nodes available") := by
  simp [uploadFile, h]

/-- Witness for C6: a coordinator whose ring is empty. -/
theorem upload_no_nodes_witness :
    uploadFile ⟨[], newConsistentHash 1 2, [], 2⟩ "f" "v" (fun _ => true) none
      "a.txt" [104, 105] "text/plain" =
      (⟨[], newConsistentHash 1 2, [], 2⟩, .error "no storage nodes available") :=
  upload_no_nodes _ "f" "v" "a.txt" "text/plain" (fun _ => true) none [104, 105] rfl

/-! ## Hash ring: GetNodes cardinality (C1) -/

theorem takeDistinct_len (k : Nat) :
    ∀ (l acc : List String), acc.Nodup → acc.length ≤ k →
      (takeDistinct k acc l).length =
        min k (acc.length + (l.toFinset \ acc.toFinset).card) := by
  intro l
  induction l with
  | nil =>
    intro acc hnd hle
    show acc.length = _
    rw [List.toFinset_nil, Finset.empty_sdiff, Finset.card_empty, Nat.add_zero,
      Nat.min_eq_right hle]
  | cons x xs ih =>
    intro acc hnd hle
    by_cases hlen : acc.length < k
    · by_cases hx : x ∈ acc
      · rw [show takeDistinct k acc (x :: xs) = takeDistinct k acc xs from by
          simp [takeDistinct, hlen, hx]]
        rw [ih acc hnd hle, List.toFinset_cons,
          Finset.insert_sdiff_of_mem _ (List.mem_toFinset.mpr hx)]
      · rw [show takeDistinct k acc (x :: xs) = takeDistinct k (acc ++ [x]) xs from by
          simp [takeDistinct, hlen, hx]]
        have hnd' : (acc ++ [x]).Nodup := by
          simp [List.nodup_append, hnd, hx]
        have hle' : (acc ++ [x]).length ≤ k := by
          rw [List.length_append, List.length_singleton]
          omega
        rw [ih (acc ++ [x]) hnd' hle']
        have h1 : (acc ++ [x]).toFinset = insert x acc.toFinset := by
          ext a
          simp [or_comm]
        rw [h1, List.toFinset_cons, List.length_append, List.length_singleton,
          Finset.insert_sdiff_of_not_mem _ (fun hc => hx (List.mem_toFinset.mp hc))]
        have h2 : (insert x (xs.toFinset \ acc.toFinset)).card =
            (xs.toFinset \ insert x acc.toFinset).card + 1 := by
          rw [Finset.sdiff_insert]
          by_cases hxs : x ∈ xs.toFinset \ acc.toFinset
          · rw [Finset.insert_eq_self.mpr hxs, Finset.card_erase_of_mem hxs]
            have hpos := Finset.card_pos.mpr ⟨x, hxs⟩
            omega
          · rw [Finset.card_insert_of_not_mem hxs, Finset.erase_eq_of_not_mem hxs]
        rw [h2]
        omega
    · rw [show takeDistinct k acc (x :: xs) = acc from by simp [takeDistinct, hlen]]
      have heq : acc.length = k := Nat.le_antisymm hle (Nat.not_lt.mp hlen)
      rw [heq, Nat.min_eq_left (Nat.le_add_right _ _)]

theorem takeDistinct_nodup (k : Nat) :
    ∀ (l acc : List String), acc.Nodup → (takeDistinct k acc l).Nodup := by
  intro l
  induction l with
  | nil => intro acc hnd; exact hnd
  | cons x xs ih =>
    intro acc hnd
    by_cases hlen : acc.length < k
    · by_cases hx : x ∈ acc
      · rw [show takeDistinct k acc (x :: xs) = takeDistinct k acc xs from by
          simp [takeDistinct, hlen, hx]]
        exact ih acc hnd
      · rw [show takeDistinct k acc (x :: xs) = takeDistinct k (acc ++ [x]) xs from by
          simp [takeDistinct, hlen, hx]]
        exact ih (acc ++ [x]) (by simp [List.nodup_append, hnd, hx])
    · rw [show takeDistinct k acc (x :: xs) = acc from by simp [takeDistinct, hlen]]
      exact hnd

theorem takeDistinct_mem (k : Nat) :
    ∀ (l acc : List String) (x : String), x ∈ takeDistinct k acc l → x ∈ acc ∨ x ∈ l := by
  intro l
  induction l with
  | nil => intro acc x hx; exact Or.inl hx
  | cons y xs ih =>
    intro acc x hx
    by_cases hlen : acc.length < k
    · by_cases hy : y ∈ acc
      · rw [show takeDistinct k acc (y :: xs) = takeDistinct k acc xs from by
          simp [takeDistinct, hlen, hy]] at hx
        cases ih acc x hx with
        | inl h => exact Or.inl h
        | inr h => exact Or.inr (List.mem_cons_of_mem y h)
      · rw [show takeDistinct k acc (y :: xs) = takeDistinct k (acc ++ [y]) xs from by
          simp [takeDistinct, hlen, hy]] at hx
        cases ih (acc ++ [y]) x hx with
        | inl h =>
          cases List.mem_append.mp h with
          | inl h1 => exact Or.inl h1
          | inr h1 =>
            simp only [List.mem_singleton] at h1
            exact Or.inr (h1 ▸ List.mem_cons_self y xs)
        | inr h => exact Or.inr (List.mem_cons_of_mem y h)
    · rw [show takeDistinct k acc (y :: xs) = acc from by simp [takeDistinct, hlen]] at hx
      exact Or.inl hx

theorem map_ringLookup_keys (m : List (Nat × String)) (hnd : (m.map Prod.fst).Nodup) :
    (m.map Prod.fst).map (ringLookup m) = m.map Prod.snd := by
  induction m with
  | nil => rfl
  | cons p t ih =>
    rw [List.map_cons] at hnd
    have hnd' := List.nodup_cons.mp hnd
    rw [List.map_cons, List.map_cons, List.map_cons]
    congr 1
    · unfold ringLookup
      rw [alGet?_cons, if_pos (by simp)]
      rfl
    · rw [← ih hnd'.2]
      apply List.map_congr_left
      intro k hk
      unfold ringLookup
      rw [alGet?_cons, if_neg (by
        simp only [beq_iff_eq]
        intro hc
        exact hnd'.1 (hc ▸ hk))]

theorem ringLookup_mem_values {m : List (Nat × String)} {h : Nat}
    (hmem : h ∈ m.map Prod.fst) : ringLookup m h ∈ m.map Prod.snd := by
  unfold ringLookup alGet?
  cases hf : m.find? (fun p => p.1 == h) with
  | none =>
    rw [List.find?_eq_none] at hf
    obtain ⟨p, hp, hfst⟩ := List.mem_map.mp hmem
    exact absurd (by simp [hfst]) (hf p hp)
  | some pr =>
    have hpr := List.mem_of_find?_eq_some hf
    show ((some pr).map Prod.snd).getD "" ∈ m.map Prod.snd
    exact List.mem_map_of_mem Prod.snd hpr

theorem getNodes_len_min (ch : ConsistentHash) (key : String) (hwf : WF ch) :
    (getNodes ch key).length = min ch.replicaFactor (nodeCount ch) := by
  obtain ⟨hnd, hperm⟩ := hwf
  by_cases hr : ch.hashRing.length = 0
  · have hre : ch.hashRing = [] := List.length_eq_zero.mp hr
    rw [hre] at hperm
    have hmnil : ch.nodes = [] := by
      have h0 : ch.nodes.map Prod.fst = [] := hperm.eq_nil
      exact List.map_eq_nil_iff.mp h0
    unfold getNodes
    rw [if_pos hr]
    unfold nodeCount
    rw [hmnil]
    simp
  · unfold getNodes
    rw [if_neg hr]
    rw [takeDistinct_len ch.replicaFactor _ [] List.nodup_nil (Nat.zero_le _)]
    simp only [List.length_nil, Nat.zero_add, List.toFinset_nil, Finset.sdiff_empty]
    congr 1
    have hperm2 : ((ch.hashRing.rotate (ringSearch ch.hashRing (hashKey key))).map
        (ringLookup ch.nodes)).Perm ((ch.nodes.map Prod.fst).map (ringLookup ch.nodes)) :=
      ((List.rotate_perm ch.hashRing _).map _).trans ((hperm.symm).map _)
    rw [List.toFinset_eq_of_perm _ _ hperm2, map_ringLookup_keys ch.nodes hnd]
    unfold nodeCount
    rw [List.card_toFinset]

/-- Claim C1: on a well-formed ring holding R distinct registered physical
nodes, `GetNodes` returns a list of distinct registered node identifiers of
length exactly `replicaFactor` when `replicaFactor ≤ R`, exactly R when
`0 < R < replicaFactor`, and the empty list (not an error) on an empty
ring. -/
theorem getNodes_replica_counts (ch : ConsistentHash) (key : String) (hwf : WF ch) :
    (getNodes ch key).Nodup ∧
    (∀ x ∈ getNodes ch key, x ∈ ch.nodes.map Prod.snd) ∧
    (ch.replicaFactor ≤ nodeCount ch →
      (getNodes ch key).length = ch.replicaFactor) ∧
    (0 < nodeCount ch → nodeCount ch < ch.replicaFactor →
      (getNodes ch key).length = nodeCount ch) ∧
    (ch.hashRing = [] → getNodes ch key = []) := by
  refine ⟨?_, ?_, ?_, ?_, ?_⟩
  · unfold getNodes
    by_cases hr : ch.hashRing.length = 0
    · rw [if_pos hr]; exact List.nodup_nil
    · rw [if_neg hr]; exact takeDistinct_nodup _ _ [] List.nodup_nil
  · intro x hx
    unfold getNodes at hx
    by_cases hr : ch.hashRing.length = 0
    · rw [if_pos hr] at hx; exact absurd hx (List.not_mem_nil x)
    · rw [if_neg hr] at hx
      cases takeDistinct_mem ch.replicaFactor _ [] x hx with
      | inl h => exact absurd h (List.not_mem_nil x)
      | inr h =>
        obtain ⟨pos, hpos, hlook⟩ := List.mem_map.mp h
        have hpos' : pos ∈ ch.nodes.map Prod.fst := by
          have hpr : pos ∈ ch.hashRing := (List.rotate_perm ch.hashRing _).mem_iff.mp hpos
          exact hwf.2.mem_iff.mpr hpr
        exact hlook ▸ ringLookup_mem_values hpos'
  · intro hge
    rw [getNodes_len_min ch key hwf, Nat.min_eq_left hge]
  · intro _ hlt
    rw [getNodes_len_min ch key hwf, Nat.min_eq_right (Nat.le_of_lt hlt)]
  · intro hre
    unfold getNodes
    rw [if_pos (by rw [hre]; rfl)]

/-- Counterexample to C1 as stated over every ring state: adding "a"
twice, adding "b", then removing "a" leaves a stale ring entry with no
map binding; the ring then holds R = 1 distinct registered node with
0 < R < replicaFactor, yet `GetNodes` returns two identifiers (the Go
zero-value "" and "b"), not exactly R. -/
theorem getNodes_replica_counts_cex :
    0 < nodeCount (runRing (newConsistentHash 1 2)
      [RingOp.add "a", RingOp.add "a", RingOp.add "b", RingOp.remove "a"]) ∧
    nodeCount (runRing (newConsistentHash 1 2)
      [RingOp.add "a", RingOp.add "a", RingOp.add "b", RingOp.remove "a"]) <
      (runRing (newConsistentHash 1 2)
        [RingOp.add "a", RingOp.add "a", RingOp.add "b", RingOp.remove "a"]).replicaFactor ∧
    (getNodes (runRing (newConsistentHash 1 2)
      [RingOp.add "a", RingOp.add "a", RingOp.add "b", RingOp.remove "a"]) "k").length ≠
      nodeCount (runRing (newConsistentHash 1 2)
        [RingOp.add "a", RingOp.add "a", RingOp.add "b", RingOp.remove "a"]) := by
  refine ⟨by decide, by decide, by decide⟩

/-- Witness for C1: a two-node ring with replica factor 2 (well-formedness
checked by evaluating the real MD5 positions). -/
theorem getNodes_replica_counts_witness :
    WF (addNode (addNode (newConsistentHash 2 2) "a") "b") ∧
    (getNodes (addNode (addNode (newConsistentHash 2 2) "a") "b") "k").length = 2 ∧
    (getNodes (addNode (addNode (newConsistentHash 2 2) "a") "b") "k").Nodup :=
  ⟨by decide,
    (getNodes_replica_counts (addNode (addNode (newConsistentHash 2 2) "a") "b") "k"
      (by decide)).2.2.1 (by decide),
    (getNodes_replica_counts (addNode (addNode (newConsistentHash 2 2) "a") "b") "k"
      (by decide)).1⟩

/-! ## Hash ring: removed nodes do not reappear (C7) -/

theorem foldl_ring_step (nodeID : String) :
    ∀ (l : List Nat) (ch : ConsistentHash),
      (l.foldl (fun c i =>
        { c with hashRing := removeExact c.hashRing (hashKey (virtualKey nodeID i)),
                 nodes := alDel c.nodes (hashKey (virtualKey nodeID i)) }) ch) =
      { ch with
        hashRing := l.foldl (fun r i => removeExact r (hashKey (virtualKey nodeID i)))
          ch.hashRing,
        nodes := l.foldl (fun m i => alDel m (hashKey (virtualKey nodeID i))) ch.nodes } := by
  intro l
  induction l with
  | nil => intro ch; rfl
  | cons i rest ih =>
    intro ch
    rw [List.foldl_cons, ih, List.foldl_cons, List.foldl_cons]

theorem removeNode_eq (ch : ConsistentHash) (nodeID : String) :
    removeNode ch nodeID = { ch with
      hashRing := (List.range ch.virtualNodes).foldl
        (fun r i => removeExact r (hashKey (virtualKey nodeID i))) ch.hashRing,
      nodes := (List.range ch.virtualNodes).foldl
        (fun m i => alDel m (hashKey (virtualKey nodeID i))) ch.nodes } := by
  unfold removeNode
  exact foldl_ring_step nodeID (List.range ch.virtualNodes) ch

theorem mem_foldl_alDel {κ β : Type} [BEq κ] [LawfulBEq κ] (g : Nat → κ) :
    ∀ (l : List Nat) (m0 : List (κ × β)) (p : κ × β),
      p ∈ l.foldl (fun m i => alDel m (g i)) m0 → p ∈ m0 ∧ ∀ i ∈ l, p.1 ≠ g i := by
  intro l
  induction l with
  | nil => intro m0 p hp; exact ⟨hp, fun i hi => absurd hi (List.not_mem_nil i)⟩
  | cons i0 rest ih =>
    intro m0 p hp
    rw [List.foldl_cons] at hp
    obtain ⟨hp0, hrest⟩ := ih (alDel m0 (g i0)) p hp
    have hmem : p ∈ m0 := List.mem_of_mem_filter hp0
    have hne : p.1 ≠ g i0 := by
      have hfp := List.of_mem_filter hp0
      simpa using hfp
    refine ⟨hmem, fun i hi => ?_⟩
    cases List.mem_cons.mp hi with
    | inl h => exact h ▸ hne
    | inr h => exact hrest i h

theorem mem_foldl_alSet {κ β : Type} [BEq κ] [LawfulBEq κ] (nid : β) :
    ∀ (hs : List κ) (m0 : List (κ × β)) (p : κ × β),
      p ∈ hs.foldl (fun m h => alSet m h nid) m0 → (p.2 = nid ∧ p.1 ∈ hs) ∨ p ∈ m0 := by
  intro hs
  induction hs with
  | nil => intro m0 p hp; exact Or.inr hp
  | cons h0 rest ih =>
    intro m0 p hp
    rw [List.foldl_cons] at hp
    cases ih (alSet m0 h0 nid) p hp with
    | inl hin => exact Or.inl ⟨hin.1, List.mem_cons_of_mem h0 hin.2⟩
    | inr hin =>
      cases List.mem_cons.mp hin with
      | inl heq =>
        exact Or.inl ⟨by rw [heq], by rw [heq]; exact List.mem_cons_self h0 rest⟩
      | inr hmem => exact Or.inr (List.mem_of_mem_filter hmem)

theorem applyRingOp_virtualNodes (ch : ConsistentHash) (op : RingOp) :
    (applyRingOp ch op).virtualNodes = ch.virtualNodes := by
  cases op with
  | add n => rfl
  | remove n => rw [show applyRingOp ch (RingOp.remove n) = removeNode ch n from rfl,
      removeNode_eq]

theorem bindsWithin_step (N : String) (ch : ConsistentHash) (op : RingOp)
    (h : ∀ p ∈ ch.nodes, p.2 = N → p.1 ∈ nodeHashes ch.virtualNodes N) :
    ∀ p ∈ (applyRingOp ch op).nodes, p.2 = N →
      p.1 ∈ nodeHashes (applyRingOp ch op).virtualNodes N := by
  cases op with
  | add M =>
    intro p hp hpN
    have hm := mem_foldl_alSet M (nodeHashes ch.virtualNodes M) ch.nodes p hp
    show p.1 ∈ nodeHashes ch.virtualNodes N
    cases hm with
    | inl h1 =>
      have hMN : M = N := h1.1.symm.trans hpN
      exact hMN ▸ h1.2
    | inr h2 => exact h p h2 hpN
  | remove M =>
    intro p hp hpN
    simp only [applyRingOp] at hp
    rw [removeNode_eq] at hp
    have hm := mem_foldl_alDel (fun i => hashKey (virtualKey M i))
      (List.range ch.virtualNodes) ch.nodes p hp
    rw [applyRingOp_virtualNodes]
    exact h p hm.1 hpN

theorem noBind_step (N : String) (ch : ConsistentHash) (op : RingOp)
    (hop : op ≠ RingOp.add N) (h : ∀ p ∈ ch.nodes, p.2 ≠ N) :
    ∀ p ∈ (applyRingOp ch op).nodes, p.2 ≠ N := by
  cases op with
  | add M =>
    have hMN : M ≠ N := fun hc => hop (by rw [hc])
    intro p hp
    cases mem_foldl_alSet M (nodeHashes ch.virtualNodes M) ch.nodes p hp with
    | inl h1 => exact h1.1 ▸ hMN
    | inr h2 => exact h p h2
  | remove M =>
    intro p hp
    simp only [applyRingOp] at hp
    rw [removeNode_eq] at hp
    exact h p (mem_foldl_alDel (fun i => hashKey (virtualKey M i))
      (List.range ch.virtualNodes) ch.nodes p hp).1

theorem removeNode_noBind (N : String) (ch : ConsistentHash)
    (h : ∀ p ∈ ch.nodes, p.2 = N → p.1 ∈ nodeHashes ch.virtualNodes N) :
    ∀ p ∈ (removeNode ch N).nodes, p.2 ≠ N := by
  intro p hp hpN
  rw [removeNode_eq] at hp
  obtain ⟨hmem, hall⟩ := mem_foldl_alDel (fun i => hashKey (virtualKey N i))
    (List.range ch.virtualNodes) ch.nodes p hp
  obtain ⟨i, hi, hkey⟩ := List.mem_map.mp (h p hmem hpN)
  exact hall i hi hkey.symm

theorem bindsWithin_run (N : String) :
    ∀ (ops : List RingOp) (ch : ConsistentHash),
      (∀ p ∈ ch.nodes, p.2 = N → p.1 ∈ nodeHashes ch.virtualNodes N) →
      ∀ p ∈ (runRing ch ops).nodes, p.2 = N →
        p.1 ∈ nodeHashes (runRing ch ops).virtualNodes N := by
  intro ops
  induction ops with
  | nil => intro ch h; exact h
  | cons op rest ih =>
    intro ch h
    show ∀ p ∈ (runRing (applyRingOp ch op) rest).nodes, _
    exact ih (applyRingOp ch op) (bindsWithin_step N ch op h)

theorem noBind_run (N : String) :
    ∀ (ops : List RingOp) (ch : ConsistentHash),
      (∀ o ∈ ops, o ≠ RingOp.add N) →
      (∀ p ∈ ch.nodes, p.2 ≠ N) →
      ∀ p ∈ (runRing ch ops).nodes, p.2 ≠ N := by
  intro ops
  induction ops with
  | nil => intro ch _ h; exact h
  | cons op rest ih =>
    intro ch hops h
    show ∀ p ∈ (runRing (applyRingOp ch op) rest).nodes, _
    exact ih (applyRingOp ch op) (fun o ho => hops o (List.mem_cons_of_mem op ho))
      (noBind_step N ch op (hops op (List.mem_cons_self op rest)) h)

theorem getNodes_mem_values (ch : ConsistentHash) (key : String) :
    ∀ x ∈ getNodes ch key, x = "" ∨ x ∈ ch.nodes.map Prod.snd := by
  intro x hx
  unfold getNodes at hx
  by_cases hr : ch.hashRing.length = 0
  · rw [if_pos hr] at hx
    exact absurd hx (List.not_mem_nil x)
  · rw [if_neg hr] at hx
    cases takeDistinct_mem ch.replicaFactor _ [] x hx with
    | inl h => exact absurd h (List.not_mem_nil x)
    | inr h =>
      obtain ⟨pos, _, hlook⟩ := List.mem_map.mp h
      unfold ringLookup at hlook
      cases hf : alGet? ch.nodes pos with
      | none =>
        rw [hf] at hlook
        exact Or.inl hlook.symm
      | some v =>
        rw [hf] at hlook
        obtain ⟨p, hp, _, hsnd⟩ := alGet?_mem hf
        refine Or.inr ?_
        rw [← hlook, show (some v).getD "" = v from rfl, ← hsnd]
        exact List.mem_map_of_mem Prod.snd hp

/-- Claim C7 (amended): after `RemoveNode(N)` for a non-empty identifier
N, N never appears in any subsequent `GetNodes` result until N is added
again — for every operation sequence and every key. -/
theorem removed_node_not_returned (virtualNodes replicaFactor : Nat) (nodeID key : String)
    (hne : nodeID ≠ "") (pre post : List RingOp)
    (hpost : ∀ o ∈ post, o ≠ RingOp.add nodeID) :
    nodeID ∉ getNodes (runRing (newConsistentHash virtualNodes replicaFactor)
      (pre ++ RingOp.remove nodeID :: post)) key := by
  intro hmem
  have hrun : runRing (newConsistentHash virtualNodes replicaFactor)
      (pre ++ RingOp.remove nodeID :: post) =
      runRing (removeNode (runRing (newConsistentHash virtualNodes replicaFactor) pre)
        nodeID) post := by
    unfold runRing
    rw [List.foldl_append, List.foldl_cons]
    rfl
  rw [hrun] at hmem
  have hbw := bindsWithin_run nodeID pre (newConsistentHash virtualNodes replicaFactor)
    (by intro p hp; exact absurd hp (List.not_mem_nil p))
  have hnb := removeNode_noBind nodeID
    (runRing (newConsistentHash virtualNodes replicaFactor) pre) hbw
  have hnb2 := noBind_run nodeID post
    (removeNode (runRing (newConsistentHash virtualNodes replicaFactor) pre) nodeID)
    hpost hnb
  cases getNodes_mem_values _ key nodeID hmem with
  | inl h => exact hne h
  | inr h =>
    obtain ⟨p, hp, hpsnd⟩ := List.mem_map.mp h
    exact hnb2 p hp hpsnd

/-- Witness for C7: add "a" and "b", remove "a"; "a" is not returned. -/
theorem removed_node_not_returned_witness :
    "a" ∉ getNodes (runRing (newConsistentHash 1 2)
      ([RingOp.add "a", RingOp.add "b"] ++ RingOp.remove "a" :: [])) "k" :=
  removed_node_not_returned 1 2 "a" "k" (by decide) [RingOp.add "a", RingOp.add "b"] []
    (by intro o ho; exact absurd ho (List.not_mem_nil o))

/-- Counterexample to C7 as stated: with the empty identifier, adding ""
twice then removing it leaves a stale ring entry whose map binding is
gone, and the Go zero-value lookup makes `GetNodes` return the removed
identifier "" again. -/
theorem removed_node_reappears_cex :
    "" ∈ getNodes (runRing (newConsistentHash 1 2)
      [RingOp.add "", RingOp.add "", RingOp.remove ""]) "k" := by decide

/-! ## Hash ring: the ring-size invariant (C8) -/

theorem lowerBound_cons_lt {a h : Nat} (t : List Nat) (ha : a < h) :
    lowerBound (a :: t) h = lowerBound t h + 1 := by
  unfold lowerBound
  rw [List.takeWhile_cons, if_pos (by simpa using ha)]
  rfl

theorem lowerBound_cons_ge {a h : Nat} (t : List Nat) (ha : ¬ a < h) :
    lowerBound (a :: t) h = 0 := by
  unfold lowerBound
  rw [List.takeWhile_cons, if_neg (by simpa using ha)]
  rfl

theorem removeExact_sorted :
    ∀ (ring : List Nat), List.Sorted (· ≤ ·) ring → ∀ h, removeExact ring h = ring.erase h := by
  intro ring
  induction ring with
  | nil => intro _ h; rfl
  | cons a t ih =>
    intro hs h
    have hst := List.sorted_cons.mp hs
    by_cases ha : a < h
    · have hne : a ≠ h := Nat.ne_of_lt ha
      rw [show (a :: t).erase h = a :: t.erase h from by
        rw [List.erase_cons, if_neg (by simp [hne])]]
      rw [← ih hst.2 h]
      unfold removeExact
      rw [lowerBound_cons_lt t ha]
      by_cases hc : lowerBound t h < t.length ∧ t.getD (lowerBound t h) 0 = h
      · rw [if_pos ⟨by simpa using Nat.succ_lt_succ hc.1,
          by rw [List.getD_cons_succ]; exact hc.2⟩, if_pos hc]
        rfl
      · rw [if_neg ?_, if_neg hc]
        intro hcon
        exact hc ⟨by
            have h1 := hcon.1
            simp only [List.length_cons] at h1
            omega,
          by
            have h2 := hcon.2
            rwa [List.getD_cons_succ] at h2⟩
    · by_cases hae : a = h
      · subst hae
        unfold removeExact
        rw [lowerBound_cons_ge t ha,
          if_pos ⟨by simp, by rw [List.getD_cons_zero]⟩]
        rw [show (a :: t).erase a = t from by rw [List.erase_cons, if_pos (by simp)],
          List.eraseIdx_cons_zero]
      · have hlt : h < a := Nat.lt_of_le_of_ne (Nat.not_lt.mp ha) (fun hc => hae hc.symm)
        have hnm : h ∉ a :: t := by
          intro hmem
          cases List.mem_cons.mp hmem with
          | inl h1 => exact hae h1.symm
          | inr h1 => exact absurd (hst.1 h h1) (Nat.not_le.mpr hlt)
        rw [List.erase_of_not_mem hnm]
        unfold removeExact
        rw [lowerBound_cons_ge t ha, if_neg ?_]
        intro hcon
        rw [List.getD_cons_zero] at hcon
        exact hae hcon.2

theorem removeExact_sorted_keeps :
    ∀ (ring : List Nat), List.Sorted (· ≤ ·) ring → ∀ h,
      List.Sorted (· ≤ ·) (removeExact ring h) := by
  intro ring hs h
  rw [removeExact_sorted ring hs h]
  exact hs.sublist (List.erase_sublist h ring)

theorem foldl_removeExact_perm :
    ∀ (hs ring rest : List Nat),
      List.Sorted (· ≤ ·) ring → ring.Perm (hs ++ rest) →
      (hs.foldl (fun r x => removeExact r x) ring).Perm rest ∧
      List.Sorted (· ≤ ·) (hs.foldl (fun r x => removeExact r x) ring) := by
  intro hs
  induction hs with
  | nil => intro ring rest hsort hperm; exact ⟨by simpa using hperm, hsort⟩
  | cons x hrest ih =>
    intro ring rest hsort hperm
    rw [List.foldl_cons, removeExact_sorted ring hsort x]
    have hperm' : (ring.erase x).Perm (hrest ++ rest) := by
      have h1 : (ring.erase x).Perm ((x :: (hrest ++ rest)).erase x) := by
        apply List.Perm.erase
        rw [← List.cons_append]
        exact hperm
      rwa [List.erase_cons_head] at h1
    exact ih (ring.erase x) rest (hsort.sublist (List.erase_sublist x ring)) hperm'

theorem foldl_removeExact_not_mem :
    ∀ (hs ring : List Nat), List.Sorted (· ≤ ·) ring → (∀ x ∈ hs, x ∉ ring) →
      hs.foldl (fun r x => removeExact r x) ring = ring := by
  intro hs
  induction hs with
  | nil => intro ring _ _; rfl
  | cons x hrest ih =>
    intro ring hsort hmem
    rw [List.foldl_cons, removeExact_sorted ring hsort x,
      List.erase_of_not_mem (hmem x (List.mem_cons_self x hrest))]
    exact ih ring hsort (fun y hy => hmem y (List.mem_cons_of_mem x hy))

theorem alSet_fresh {κ β : Type} [BEq κ] [LawfulBEq κ] (m : List (κ × β)) (k : κ) (v : β)
    (h : k ∉ m.map Prod.fst) : alSet m k v = (k, v) :: m := by
  unfold alSet
  rw [show m.filter (fun p => !(p.1 == k)) = alDel m k from rfl, alDel_of_not_mem h]

theorem foldl_alSet_pairs {β : Type} (nid : β) :
    ∀ (hs : List Nat) (m : List (Nat × β)),
      hs.Nodup → (∀ x ∈ hs, x ∉ m.map Prod.fst) →
      (hs.foldl (fun mm h => alSet mm h nid) m).Perm ((hs.map (fun h => (h, nid))) ++ m) := by
  intro hs
  induction hs with
  | nil => intro m _ _; exact List.Perm.refl m
  | cons h0 rest ih =>
    intro m hnd hfresh
    rw [List.foldl_cons, alSet_fresh m h0 nid (hfresh h0 (List.mem_cons_self h0 rest))]
    have hnd' := List.nodup_cons.mp hnd
    have hfresh' : ∀ x ∈ rest, x ∉ ((h0, nid) :: m).map Prod.fst := by
      intro x hx hcon
      rw [List.map_cons] at hcon
      cases List.mem_cons.mp hcon with
      | inl h1 =>
        exact hnd'.1 (by rw [show x = h0 from h1] at hx; exact hx)
      | inr h1 => exact hfresh x (List.mem_cons_of_mem h0 hx) h1
    have hmid := ih ((h0, nid) :: m) hnd'.2 hfresh'
    refine hmid.trans ?_
    rw [List.map_cons, List.cons_append]
    exact List.perm_middle

theorem foldl_alDel_filter {κ β : Type} [BEq κ] [LawfulBEq κ] :
    ∀ (hs : List κ) (m : List (κ × β)),
      hs.foldl (fun mm k => alDel mm k) m = m.filter (fun p => !(hs.contains p.1)) := by
  intro hs
  induction hs with
  | nil =>
    intro m
    rw [List.foldl_nil]
    exact (List.filter_eq_self.mpr (fun p _ => by simp)).symm
  | cons k0 rest ih =>
    intro m
    rw [List.foldl_cons, ih (alDel m k0)]
    unfold alDel
    rw [List.filter_filter]
    apply List.filter_congr
    intro p _
    cases hk : p.1 == k0 with
    | true => simp [List.contains_cons, hk]
    | false => simp [List.contains_cons, hk]

theorem pairsOf_cons (V : Nat) (n : String) (ns : List String) :
    pairsOf V (n :: ns) =
      (List.range V).map (fun i => (hashKey (virtualKey n i), n)) ++ pairsOf V ns := by
  unfold pairsOf
  rw [List.flatMap_cons]

theorem ringOf_cons (V : Nat) (n : String) (ns : List String) :
    ringOf V (n :: ns) = nodeHashes V n ++ ringOf V ns := by
  unfold ringOf
  rw [List.flatMap_cons]

theorem pairsOf_map_fst (V : Nat) :
    ∀ (ns : List String), (pairsOf V ns).map Prod.fst = ringOf V ns := by
  intro ns
  induction ns with
  | nil => rfl
  | cons n rest ih =>
    rw [pairsOf_cons, ringOf_cons, List.map_append, ih, List.map_map]
    rfl

theorem mem_pairsOf {V : Nat} {ns : List String} {p : Nat × String}
    (hp : p ∈ pairsOf V ns) :
    ∃ m ∈ ns, ∃ j ∈ List.range V, p = (hashKey (virtualKey m j), m) := by
  unfold pairsOf at hp
  obtain ⟨m, hm, hp2⟩ := List.mem_flatMap.mp hp
  obtain ⟨j, hj, hp3⟩ := List.mem_map.mp hp2
  exact ⟨m, hm, j, hj, hp3.symm⟩

theorem mem_ringOf {V : Nat} {ns : List String} {x : Nat} (hx : x ∈ ringOf V ns) :
    ∃ m ∈ ns, ∃ j ∈ List.range V, x = hashKey (virtualKey m j) := by
  unfold ringOf at hx
  obtain ⟨m, hm, hx2⟩ := List.mem_flatMap.mp hx
  obtain ⟨j, hj, hx3⟩ := List.mem_map.mp hx2
  exact ⟨m, hm, j, hj, hx3.symm⟩

theorem nodeHashes_nodup {V : Nat} {names : List String} (hinj : HashInjOn V names)
    {n : String} (hn : n ∈ names) : (nodeHashes V n).Nodup := by
  unfold nodeHashes
  apply List.Nodup.map_on ?_ (List.nodup_range V)
  intro i hi j hj heq
  exact (hinj n hn n hn i hi j hj heq).2

theorem mem_nodeHashes {V : Nat} {n : String} {x : Nat} (hx : x ∈ nodeHashes V n) :
    ∃ j ∈ List.range V, x = hashKey (virtualKey n j) := by
  unfold nodeHashes at hx
  obtain ⟨j, hj, h3⟩ := List.mem_map.mp hx
  exact ⟨j, hj, h3.symm⟩

theorem contains_eq_false_of_not_mem {κ : Type} [BEq κ] [LawfulBEq κ] {l : List κ} {x : κ}
    (h : x ∉ l) : l.contains x = false := by
  cases hc : l.contains x with
  | false => rfl
  | true => exact absurd (List.mem_of_elem_eq_true hc) h

theorem filter_pairsOf {V : Nat} {names : List String} (hinj : HashInjOn V names)
    (n : String) (hn : n ∈ names) :
    ∀ (ns : List String), ns.Nodup → (∀ m ∈ ns, m ∈ names) →
      (pairsOf V ns).filter (fun p => !((nodeHashes V n).contains p.1)) =
        pairsOf V (ns.erase n) := by
  intro ns
  induction ns with
  | nil => intro _ _; rfl
  | cons m rest ih =>
    intro hnd hsub
    have hnd' := List.nodup_cons.mp hnd
    have hsub' : ∀ m' ∈ rest, m' ∈ names :=
      fun m' hm' => hsub m' (List.mem_cons_of_mem m hm')
    rw [pairsOf_cons, List.filter_append]
    by_cases hmn : m = n
    · subst hmn
      have hblock : ((List.range V).map (fun i => (hashKey (virtualKey m i), m))).filter
          (fun p => !((nodeHashes V m).contains p.1)) = [] := by
        apply List.filter_eq_nil_iff.mpr
        intro p hp
        obtain ⟨j, hj, hpe⟩ := List.mem_map.mp hp
        have hmem : p.1 ∈ nodeHashes V m := by
          rw [← hpe]
          exact List.mem_map_of_mem _ hj
        simpa using hmem
      have hrest : (pairsOf V rest).filter
          (fun p => !((nodeHashes V m).contains p.1)) = pairsOf V rest := by
        apply List.filter_eq_self.mpr
        intro p hp
        obtain ⟨m', hm', j, hj, hpe⟩ := mem_pairsOf hp
        have hm'ne : m' ≠ m := fun hc => hnd'.1 (hc ▸ hm')
        have hnotmem : p.1 ∉ nodeHashes V m := by
          intro hcon
          obtain ⟨i, hi, hie⟩ := mem_nodeHashes hcon
          have hp1 : p.1 = hashKey (virtualKey m' j) := by rw [hpe]
          rw [hp1] at hie
          exact hm'ne (hinj m' (hsub' m' hm') m hn j hj i hi hie).1
        simpa using hnotmem
      rw [hblock, hrest, List.nil_append, List.erase_cons_head]
    · have hblock : ((List.range V).map (fun i => (hashKey (virtualKey m i), m))).filter
          (fun p => !((nodeHashes V n).contains p.1)) =
          (List.range V).map (fun i => (hashKey (virtualKey m i), m)) := by
        apply List.filter_eq_self.mpr
        intro p hp
        obtain ⟨j, hj, hpe⟩ := List.mem_map.mp hp
        have hnotmem : p.1 ∉ nodeHashes V n := by
          intro hcon
          obtain ⟨i, hi, hie⟩ := mem_nodeHashes hcon
          have hp1 : p.1 = hashKey (virtualKey m j) := by rw [← hpe]
          rw [hp1] at hie
          exact hmn (hinj m (hsub m (List.mem_cons_self m rest)) n hn j hj i hi hie).1
        simpa using hnotmem
      rw [hblock, ih hnd'.2 hsub',
        show (m :: rest).erase n = m :: rest.erase n from by
          rw [List.erase_cons, if_neg (by simp [hmn])],
        pairsOf_cons]

theorem models_add {names : List String} (ch : ConsistentHash) (ns : List String)
    (n : String) (hinj : HashInjOn ch.virtualNodes names)
    (hm : RingModels ch ns) (hsub : ∀ m ∈ ns, m ∈ names) (hn : n ∈ names)
    (hnew : n ∉ ns) : RingModels (addNode ch n) (n :: ns) := by
  obtain ⟨hring, hsort, hnodes⟩ := hm
  have hkeys : (ch.nodes.map Prod.fst).Perm (ringOf ch.virtualNodes ns) := by
    have h1 := hnodes.map Prod.fst
    rwa [pairsOf_map_fst] at h1
  refine ⟨?_, ?_, ?_⟩
  · show (List.insertionSort (· ≤ ·) (ch.hashRing ++ nodeHashes ch.virtualNodes n)).Perm
      (ringOf ch.virtualNodes (n :: ns))
    refine (List.perm_insertionSort (· ≤ ·) _).trans ?_
    rw [ringOf_cons]
    exact (hring.append_right (nodeHashes ch.virtualNodes n)).trans List.perm_append_comm
  · exact List.sorted_insertionSort (· ≤ ·) _
  · show ((nodeHashes ch.virtualNodes n).foldl (fun m h => alSet m h n) ch.nodes).Perm
      (pairsOf ch.virtualNodes (n :: ns))
    have hfresh : ∀ x ∈ nodeHashes ch.virtualNodes n, x ∉ ch.nodes.map Prod.fst := by
      intro x hx hcon
      obtain ⟨j, hj, hxe⟩ := mem_nodeHashes hx
      obtain ⟨m, hmns, i, hi, hxe2⟩ := mem_ringOf (hkeys.mem_iff.mp hcon)
      have heq : hashKey (virtualKey m i) = hashKey (virtualKey n j) := by
        rw [← hxe2, ← hxe]
      exact hnew ((hinj m (hsub m hmns) n hn i hi j hj heq).1 ▸ hmns)
    refine (foldl_alSet_pairs n (nodeHashes ch.virtualNodes n) ch.nodes
      (nodeHashes_nodup hinj hn) hfresh).trans ?_
    rw [pairsOf_cons]
    refine List.Perm.append ?_ hnodes
    unfold nodeHashes
    rw [List.map_map]
    exact List.Perm.refl _

theorem models_remove {names : List String} (ch : ConsistentHash) (ns : List String)
    (n : String) (hinj : HashInjOn ch.virtualNodes names)
    (hm : RingModels ch ns) (hnd : ns.Nodup)
    (hsub : ∀ m ∈ ns, m ∈ names) (hn : n ∈ names) :
    RingModels (removeNode ch n) (ns.erase n) := by
  obtain ⟨hring, hsort, hnodes⟩ := hm
  rw [removeNode_eq]
  have hringfold : (List.range ch.virtualNodes).foldl
      (fun r i => removeExact r (hashKey (virtualKey n i))) ch.hashRing =
      (nodeHashes ch.virtualNodes n).foldl (fun r x => removeExact r x) ch.hashRing := by
    unfold nodeHashes
    rw [List.foldl_map]
  have hnodesfold : (List.range ch.virtualNodes).foldl
      (fun m i => alDel m (hashKey (virtualKey n i))) ch.nodes =
      ch.nodes.filter (fun p => !((nodeHashes ch.virtualNodes n).contains p.1)) := by
    unfold nodeHashes
    exact (List.foldl_map (fun i => hashKey (virtualKey n i)) (fun mm k => alDel mm k)
      (List.range ch.virtualNodes) ch.nodes).symm.trans
      (foldl_alDel_filter _ ch.nodes)
  have hnodes' : (ch.nodes.filter
      (fun p => !((nodeHashes ch.virtualNodes n).contains p.1))).Perm
      (pairsOf ch.virtualNodes (ns.erase n)) := by
    refine (hnodes.filter _).trans ?_
    rw [filter_pairsOf hinj n hn ns hnd hsub]
  by_cases hmem : n ∈ ns
  · have hdecomp : ch.hashRing.Perm
        (nodeHashes ch.virtualNodes n ++ ringOf ch.virtualNodes (ns.erase n)) := by
      refine hring.trans ?_
      rw [← ringOf_cons]
      exact List.Perm.flatMap_right _ (List.perm_cons_erase hmem)
    obtain ⟨hp, hsorted⟩ := foldl_removeExact_perm (nodeHashes ch.virtualNodes n)
      ch.hashRing (ringOf ch.virtualNodes (ns.erase n)) hsort hdecomp
    refine ⟨?_, ?_, ?_⟩
    · show ((List.range ch.virtualNodes).foldl
        (fun r i => removeExact r (hashKey (virtualKey n i))) ch.hashRing).Perm _
      rw [hringfold]
      exact hp
    · show List.Sorted (· ≤ ·) ((List.range ch.virtualNodes).foldl
        (fun r i => removeExact r (hashKey (virtualKey n i))) ch.hashRing)
      rw [hringfold]
      exact hsorted
    · show ((List.range ch.virtualNodes).foldl
        (fun m i => alDel m (hashKey (virtualKey n i))) ch.nodes).Perm _
      rw [hnodesfold]
      exact hnodes'
  · have hnone : ∀ x ∈ nodeHashes ch.virtualNodes n, x ∉ ch.hashRing := by
      intro x hx hcon
      obtain ⟨j, hj, hxe⟩ := mem_nodeHashes hx
      obtain ⟨m, hmns, i, hi, hxe2⟩ := mem_ringOf (hring.mem_iff.mp hcon)
      have heq : hashKey (virtualKey m i) = hashKey (virtualKey n j) := by
        rw [← hxe2, ← hxe]
      exact hmem ((hinj m (hsub m hmns) n hn i hi j hj heq).1 ▸ hmns)
    have hkeep := foldl_removeExact_not_mem (nodeHashes ch.virtualNodes n)
      ch.hashRing hsort hnone
    refine ⟨?_, ?_, ?_⟩
    · show ((List.range ch.virtualNodes).foldl
        (fun r i => removeExact r (hashKey (virtualKey n i))) ch.hashRing).Perm _
      rw [hringfold, hkeep, List.erase_of_not_mem hmem]
      exact hring
    · show List.Sorted (· ≤ ·) ((List.range ch.virtualNodes).foldl
        (fun r i => removeExact r (hashKey (virtualKey n i))) ch.hashRing)
      rw [hringfold, hkeep]
      exact hsort
    · show ((List.range ch.virtualNodes).foldl
        (fun m i => alDel m (hashKey (virtualKey n i))) ch.nodes).Perm _
      rw [hnodesfold]
      exact hnodes'

theorem models_run {names : List String} :
    ∀ (ops : List RingOp) (ch : ConsistentHash) (ns : List String),
      HashInjOn ch.virtualNodes names →
      RingModels ch ns → ns.Nodup →
      (∀ m ∈ ns, m ∈ names) → (∀ m ∈ opsNames ops, m ∈ names) →
      disciplinedFrom ns ops = true →
      RingModels (runRing ch ops) (presentAfter ns ops) ∧
      (presentAfter ns ops).Nodup ∧
      (∀ m ∈ presentAfter ns ops, m ∈ names) := by
  intro ops
  induction ops with
  | nil => intro ch ns _ hm hnd hsub _ _; exact ⟨hm, hnd, hsub⟩
  | cons op rest ih =>
    intro ch ns hinj hm hnd hsub hops hdisc
    cases op with
    | add n =>
      have hn : n ∈ names :=
        hops n (show n ∈ n :: opsNames rest from List.mem_cons_self _ _)
      have hops' : ∀ m ∈ opsNames rest, m ∈ names :=
        fun m hm' => hops m (show m ∈ n :: opsNames rest from List.mem_cons_of_mem n hm')
      have hdisc' : n ∉ ns ∧ disciplinedFrom (n :: ns) rest = true := by
        have hd : (!(decide (n ∈ ns)) && disciplinedFrom (n :: ns) rest) = true := hdisc
        simp only [Bool.and_eq_true, Bool.not_eq_true', decide_eq_false_iff_not] at hd
        exact hd
      exact ih (addNode ch n) (n :: ns) hinj
        (models_add ch ns n hinj hm hsub hn hdisc'.1)
        (List.nodup_cons.mpr ⟨hdisc'.1, hnd⟩)
        (by
          intro m hm'
          cases List.mem_cons.mp hm' with
          | inl h => exact h ▸ hn
          | inr h => exact hsub m h)
        hops' hdisc'.2
    | remove n =>
      have hn : n ∈ names :=
        hops n (show n ∈ n :: opsNames rest from List.mem_cons_self _ _)
      have hops' : ∀ m ∈ opsNames rest, m ∈ names :=
        fun m hm' => hops m (show m ∈ n :: opsNames rest from List.mem_cons_of_mem n hm')
      have hV : (removeNode ch n).virtualNodes = ch.virtualNodes := by
        rw [removeNode_eq]
      exact ih (removeNode ch n) (ns.erase n)
        (by rw [hV]; exact hinj)
        (models_remove ch ns n hinj hm hnd hsub hn)
        (hnd.erase n)
        (fun m hm' => hsub m (List.mem_of_mem_erase hm'))
        hops' hdisc

theorem ringOf_length (V : Nat) :
    ∀ (l : List String), (ringOf V l).length = l.length * V := by
  intro l
  induction l with
  | nil => simp [ringOf]
  | cons a t ih =>
    rw [ringOf_cons, List.length_append, ih]
    unfold nodeHashes
    rw [List.length_map, List.length_range, List.length_cons]
    ring

theorem pairsOf_values_toFinset {V : Nat} (hV : 1 ≤ V) :
    ∀ (l : List String), ((pairsOf V l).map Prod.snd).toFinset = l.toFinset := by
  intro l
  induction l with
  | nil => rfl
  | cons a t ih =>
    rw [pairsOf_cons, List.map_append, List.toFinset_append, ih, List.map_map,
      List.toFinset_cons]
    have hblock : ((List.range V).map (Prod.snd ∘ fun i => (hashKey (virtualKey a i), a))).toFinset
        = {a} := by
      ext x
      simp only [List.mem_toFinset, List.mem_map, List.mem_range, Function.comp_apply,
        Finset.mem_singleton]
      constructor
      · rintro ⟨i, _, hxe⟩
        exact hxe.symm
      · intro hxe
        exact ⟨0, by omega, hxe.symm⟩
    rw [hblock]
    ext x
    simp only [Finset.mem_union, Finset.mem_singleton, Finset.mem_insert]

theorem runRing_virtualNodes :
    ∀ (ops : List RingOp) (ch : ConsistentHash),
      (runRing ch ops).virtualNodes = ch.virtualNodes := by
  intro ops
  induction ops with
  | nil => intro ch; rfl
  | cons op rest ih =>
    intro ch
    rw [show runRing ch (op :: rest) = runRing (applyRingOp ch op) rest from rfl, ih,
      applyRingOp_virtualNodes]

/-- Claim C8 (amended): for operation sequences that never add a node
already present, and absent 32-bit hash collisions among the virtual keys
of the nodes involved, the ring's position sequence always holds exactly
virtualNodes × (number of distinct physical nodes in the position map)
entries. -/
theorem ring_size_after_ops (virtualNodes replicaFactor : Nat) (ops : List RingOp)
    (hinj : HashInjOn (newConsistentHash virtualNodes replicaFactor).virtualNodes
      (opsNames ops))
    (hdisc : disciplinedFrom [] ops = true) :
    (runRing (newConsistentHash virtualNodes replicaFactor) ops).hashRing.length =
      (newConsistentHash virtualNodes replicaFactor).virtualNodes *
        nodeCount (runRing (newConsistentHash virtualNodes replicaFactor) ops) := by
  obtain ⟨⟨hring, _, hnodes⟩, hnodup, _⟩ :=
    models_run ops (newConsistentHash virtualNodes replicaFactor) [] hinj
      ⟨List.Perm.refl _, List.sorted_nil, List.Perm.refl _⟩
      List.nodup_nil (fun m hm => absurd hm (List.not_mem_nil m))
      (fun m hm => hm) hdisc
  rw [runRing_virtualNodes ops _] at hring hnodes
  rw [hring.length_eq, ringOf_length]
  have hVpos : 1 ≤ (newConsistentHash virtualNodes replicaFactor).virtualNodes := by
    unfold newConsistentHash
    by_cases h0 : virtualNodes = 0 <;> simp [h0] <;> omega
  unfold nodeCount
  rw [← List.card_toFinset, List.toFinset_eq_of_perm _ _ (hnodes.map Prod.snd),
    pairsOf_values_toFinset hVpos, List.toFinset_card_of_nodup hnodup]
  exact Nat.mul_comm _ _

/-- Witness for C8: add "a" and "b" then remove "a", with injectivity of
the real MD5 positions checked by evaluation. -/
theorem ring_size_after_ops_witness :
    HashInjOn (newConsistentHash 1 2).virtualNodes
      (opsNames [RingOp.add "a", RingOp.add "b", RingOp.remove "a"]) ∧
    disciplinedFrom [] [RingOp.add "a", RingOp.add "b", RingOp.remove "a"] = true ∧
    (runRing (newConsistentHash 1 2)
        [RingOp.add "a", RingOp.add "b", RingOp.remove "a"]).hashRing.length =
      (newConsistentHash 1 2).virtualNodes *
        nodeCount (runRing (newConsistentHash 1 2)
          [RingOp.add "a", RingOp.add "b", RingOp.remove "a"]) :=
  ⟨by decide, by decide,
    ring_size_after_ops 1 2 [RingOp.add "a", RingOp.add "b", RingOp.remove "a"]
      (by decide) (by decide)⟩

/-- Counterexample to C8 as stated: adding the same node twice (which
`RegisterNode` does not prevent) appends its virtual hashes to the ring
again while the position map keeps one binding per position, so the ring
holds twice as many entries as the invariant allows. -/
theorem ring_size_after_ops_cex :
    ¬ ((runRing (newConsistentHash 1 2) [RingOp.add "n", RingOp.add "n"]).hashRing.length =
      (newConsistentHash 1 2).virtualNodes *
        nodeCount (runRing (newConsistentHash 1 2) [RingOp.add "n", RingOp.add "n"])) := by
  decide

end Shardstore
